import Mathlib

/-!
# jflows: workflow discovery, generation and validation

A shallow embedding of

* `lib/workflows.go` (`getWorkflowSources`, `getWorkflowTemplates`, `getWorkflowName`,
  `GetWorkflowDefinitions`, `ValidateWorkflows`), and
* `workflow/workflow_validator.go` (`ValidateSchema`, `ValidateContent` and the configuration
  look-ups they use), and
* `fixtures/fixtures.go` (`File`, `NewFile`, `File.Write`).

Conventions.

* A Go `string` is embedded as a Lean `String`, i.e. the embedding covers the strings that are
  valid UTF-8.  The bytes `'/'`, `'.'`, `'"'`, ... the code looks for are ASCII, so scanning the
  characters of a valid UTF-8 string finds them at the same places as scanning its bytes.
* A Go `panic` is the value `none` of an `Option`; a returned `error` is `Except.error`.
* The collaborators that are not part of the repository (the `afero` filesystem, the jsonnet VM,
  the JSON-schema library) are records of functions, so every statement holds for every
  implementation of them.  Where the filesystem is written to, it is a machine (`Storage`)
  whose states answer these operations.
-/

namespace Jflows

/-! ## The Go standard library functions the code calls -/

namespace strings

/-- Go `strings.HasSuffix`. -/
def HasSuffix (s suffix : String) : Bool :=
  suffix.data.isSuffixOf s.data

/-- Go `strings.TrimSuffix`: `s` without the trailing `suffix`, or `s` itself when `s` does not
end with `suffix`. -/
def TrimSuffix (s suffix : String) : String :=
  if HasSuffix s suffix then String.mk (s.data.take (s.data.length - suffix.data.length)) else s

/-- Go `strings.Trim`: `s` without its leading and trailing characters that are in `cutset`. -/
def Trim (s cutset : String) : String :=
  String.mk
    (((s.data.dropWhile (fun c => cutset.data.contains c)).reverse.dropWhile
      (fun c => cutset.data.contains c)).reverse)

/-- Go `strings.Join`. -/
def Join (elems : List String) (sep : String) : String :=
  sep.intercalate elems

end strings

namespace filepath

/-- The loop of Go `filepath.Ext`, run over the reversed path: `acc` holds the characters already
passed, in path order.  The scan stops at the first separator (no extension) or at the first dot
(the extension is the dot and everything after it). -/
def extRev : List Char → List Char → List Char
  | [], _ => []
  | c :: rest, acc =>
    if c = '/' then [] else if c = '.' then '.' :: acc else extRev rest (c :: acc)

/-- Go `filepath.Ext`: the suffix of `path` starting at the last dot of its last element, or the
empty string when that element has no dot. -/
def Ext (path : String) : String :=
  String.mk (extRev path.data.reverse [])

/-- The loop of Go `filepath.Split`, run over the reversed path: it walks back to the last
separator and returns (reversed directory part, file part). -/
def splitRev : List Char → List Char → List Char × List Char
  | [], acc => ([], acc)
  | c :: rest, acc => if c = '/' then (c :: rest, acc) else splitRev rest (c :: acc)

/-- Go `filepath.Split`: the path up to and including its last separator, and what follows it. -/
def Split (path : String) : String × String :=
  let r := splitRev path.data.reverse []
  (String.mk r.1.reverse, String.mk r.2)

/-- The inner loop of the `..` case of Go `filepath.Clean`: starting from write index `w`, step
back while `w > dotdot` and the byte at `w` is not a separator. -/
def backtrack (out : List Char) (dotdot : Nat) : Nat → Nat
  | 0 => 0
  | w + 1 => if dotdot < w + 1 ∧ out.get? (w + 1) ≠ some '/' then backtrack out dotdot w else w + 1

/-- The main loop of Go `filepath.Clean` as a machine reading one character at a time: `out` is
the buffer written so far, `dotdot` the index where `..` must stop, and `copying` says that the
loop is in the middle of copying a real path element. -/
def cleanLoop (rooted : Bool) : List Char → List Char → Nat → Bool → List Char
  | [], out, _, _ => out
  | c :: t, out, dotdot, true =>
    if c = '/' then cleanLoop rooted t out dotdot false
    else cleanLoop rooted t (out ++ [c]) dotdot true
  | '/' :: t, out, dotdot, false => cleanLoop rooted t out dotdot false
  | ['.'], out, _, false => out
  | '.' :: '/' :: t, out, dotdot, false => cleanLoop rooted t out dotdot false
  | ['.', '.'], out, dotdot, false =>
    if dotdot < out.length then out.take (backtrack out dotdot (out.length - 1))
    else if !rooted then (if 0 < out.length then out ++ ['/'] else out) ++ ['.', '.']
    else out
  | '.' :: '.' :: '/' :: t, out, dotdot, false =>
    if dotdot < out.length then
      cleanLoop rooted t (out.take (backtrack out dotdot (out.length - 1))) dotdot false
    else if !rooted then
      let out1 := (if 0 < out.length then out ++ ['/'] else out) ++ ['.', '.']
      cleanLoop rooted t out1 out1.length false
    else cleanLoop rooted t out dotdot false
  | c :: t, out, dotdot, false =>
    let out1 :=
      if (rooted ∧ out.length ≠ 1) ∨ (¬ rooted ∧ out.length ≠ 0) then out ++ ['/'] else out
    cleanLoop rooted t (out1 ++ [c]) dotdot true

/-- Go `filepath.Clean` on a system whose separator is `/` and that has no volume names. -/
def Clean (path : String) : String :=
  match path.data with
  | [] => "."
  | '/' :: t =>
    let out := cleanLoop true t ['/'] 1 false
    String.mk (if out.length = 0 then ['.'] else out)
  | c :: t =>
    let out := cleanLoop false (c :: t) [] 0 false
    String.mk (if out.length = 0 then ['.'] else out)

/-- Go `filepath.Join`: the elements from the first non-empty one on, joined by the separator
and cleaned; the empty string when every element is empty. -/
def Join (elem : List String) : String :=
  match elem.dropWhile (fun e => e = "") with
  | [] => ""
  | rest => Clean (strings.Join rest "/")

end filepath

/-! ## `lib/workflows.go` -/

/-- The result of a validation (`ValidationResult`). -/
structure ValidationResult where
  Valid : Bool
  Errors : List String := []
  ActualContent : String := ""
  deriving DecidableEq, Repr

/-- The struct `WorkflowDefinition` of `lib/workflows.go`. -/
structure WorkflowDefinition where
  Name : String := ""
  Source : String := ""
  Destination : String := ""
  Content : String := ""
  Status : ValidationResult := { Valid := false }
  deriving DecidableEq, Repr

/-- The fields of `JFlowsContext` that `lib/workflows.go` reads. -/
structure JFlowsContext where
  WorkflowsDir : String
  GitHubDir : String
  deriving DecidableEq, Repr

/-- The operations of `*afero.Afero` the code calls.  `Walk root` gives the paths handed to the
walk callback, in walk order (the callbacks of `lib/workflows.go` always return `nil`, so the
walk is never cut short), or the error `Walk` returns. -/
structure Afero where
  Exists : String → Except String Bool
  ReadFile : String → Except String String
  Walk : String → Except String (List String)

/-- The jsonnet VM: `EvaluateSnippet filename snippet` with `StringOutput` set. -/
structure VM where
  EvaluateSnippet : String → String → Except String String

/-- The function `getWorkflowSources`: the visited paths whose extension is `.jsonnet` or
`.libsonnet`; a walk error panics. -/
def getWorkflowSources (fs : Afero) (context : JFlowsContext) : Option (List String) :=
  match fs.Walk context.WorkflowsDir with
  | .error _ => none
  | .ok visited =>
    some (visited.foldl
      (fun files path =>
        let ext := filepath.Ext path
        if ext = ".jsonnet" ∨ ext = ".libsonnet" then files ++ [path] else files)
      [])

/-- The function `getWorkflowTemplates`: the sources whose extension is `.jsonnet`. -/
def getWorkflowTemplates (fs : Afero) (context : JFlowsContext) : Option (List String) :=
  match getWorkflowSources fs context with
  | none => none
  | some sources =>
    some (sources.foldl
      (fun templates source =>
        if filepath.Ext source = ".jsonnet" then templates ++ [source] else templates)
      [])

/-- The function `getWorkflowName`: the file part of `filename` without its extension. -/
def getWorkflowName (_workflowsDir : String) (filename : String) : String :=
  let templateFileName := (filepath.Split filename).2
  strings.TrimSuffix templateFileName (filepath.Ext templateFileName)

/-- The body of the `for` loop of `GetWorkflowDefinitions` once the template has been read:
the definition built for the template at `templatePath` with content `input`. -/
def evaluateTemplate (vm : VM) (context : JFlowsContext) (templatePath input : String) :
    WorkflowDefinition :=
  let workflowName := getWorkflowName context.WorkflowsDir templatePath
  let destinationPath :=
    filepath.Join [context.GitHubDir, "workflows/", workflowName ++ ".yml"]
  let definition : WorkflowDefinition :=
    { Name := workflowName
      Source := templatePath
      Destination := destinationPath
      Status := { Valid := true } }
  match vm.EvaluateSnippet templatePath input with
  | .error err =>
    { definition with
      Status := { definition.Status with
                  Valid := false
                  Errors := [strings.Trim err " \n\r"] } }
  | .ok workflow =>
    let header := strings.Join
      ["# File generated by jflows, do not modify", "# Source: " ++ templatePath] "\n"
    { definition with Content := header ++ "\n" ++ workflow }

/-- The `for` loop of `GetWorkflowDefinitions`, over the templates still to process and the
definitions built so far.  A read error returns the error at once. -/
def definitionsLoop (fs : Afero) (vm : VM) (context : JFlowsContext) :
    List String → List WorkflowDefinition → Except String (List WorkflowDefinition)
  | [], definitions => .ok definitions
  | templatePath :: rest, definitions =>
    match fs.ReadFile templatePath with
    | .error err => .error err
    | .ok input =>
      definitionsLoop fs vm context rest
        (definitions ++ [evaluateTemplate vm context templatePath input])

/-- The function `GetWorkflowDefinitions`: `none` is a panic (of the walk), `Except.error` the
returned error (of reading a template). -/
def GetWorkflowDefinitions (fs : Afero) (vm : VM) (context : JFlowsContext) :
    Option (Except String (List WorkflowDefinition)) :=
  match getWorkflowTemplates fs context with
  | none => none
  | some templates => some (definitionsLoop fs vm context templates [])

/-- The two methods of the validator that `ValidateWorkflows` calls; `none` is a panic. -/
structure Validator where
  ValidateSchema : WorkflowDefinition → Option ValidationResult
  ValidateContent : WorkflowDefinition → Option ValidationResult

/-- What `ValidateWorkflows` does that can be observed: what it prints (without the terminal
styling) and the validator methods it invokes. -/
inductive Event where
  | checking (name : String)
  | failed
  | text (line : String)
  | ok
  | invokeSchema (definition : WorkflowDefinition)
  | invokeContent (definition : WorkflowDefinition)
  deriving DecidableEq, Repr

/-- The `for` loop of `ValidateWorkflows` over the definitions still to check, threading the
local `valid` and the events so far.  The second component is `none` when the loop panics (a
validator method panics, or `contentResult.Errors[0]` is read from an empty list). -/
def validateLoop (V : Validator) :
    List WorkflowDefinition → Bool → List Event → List Event × Option Bool
  | [], valid, log => (log, some valid)
  | definition :: rest, valid, log =>
    let log := log ++ [Event.checking definition.Name]
    if !definition.Status.Valid then
      let log := log ++ [Event.failed, Event.text "  Error parsing template:"]
        ++ definition.Status.Errors.map (fun err => Event.text ("  ► " ++ err ++ "\n\n"))
      validateLoop V rest false log
    else
      let log := log ++ [Event.invokeSchema definition]
      match V.ValidateSchema definition with
      | none => (log, none)
      | some schemaResult =>
        if !schemaResult.Valid then
          let log := log ++ [Event.failed, Event.text "  Workflow failed schema validation:"]
            ++ schemaResult.Errors.map (fun err => Event.text ("  ► " ++ err ++ "\n"))
          validateLoop V rest false log
        else
          let log := log ++ [Event.invokeContent definition]
          match V.ValidateContent definition with
          | none => (log, none)
          | some contentResult =>
            if !contentResult.Valid then
              match contentResult.Errors with
              | [] => (log ++ [Event.failed], none)
              | first :: _ =>
                validateLoop V rest false
                  (log ++ [Event.failed, Event.text ("  " ++ first),
                    Event.text "  ► Run \"jflows workflow update\" to update"])
            else validateLoop V rest valid (log ++ [Event.ok])

/-- The name printed by a `Checking ...` event. -/
def Event.checkedName : Event → Option String
  | Event.checking name => some name
  | _ => none

/-- The definition with which an event invokes `ValidateSchema`. -/
def Event.schemaCall : Event → Option WorkflowDefinition
  | Event.invokeSchema definition => some definition
  | _ => none

/-- The definition with which an event invokes `ValidateContent`. -/
def Event.contentCall : Event → Option WorkflowDefinition
  | Event.invokeContent definition => some definition
  | _ => none

/-- The definition passes the three checks of `ValidateWorkflows`: its status is valid, and
`ValidateSchema` and `ValidateContent` each return a valid result. -/
def Validator.Passes (V : Validator) (d : WorkflowDefinition) : Prop :=
  d.Status.Valid = true
    ∧ (∃ r, V.ValidateSchema d = some r ∧ r.Valid = true)
    ∧ (∃ r, V.ValidateContent d = some r ∧ r.Valid = true)

/-- Checking the definition does not panic: the validator methods that get invoked return, and
an invalid content result carries the message that is printed. -/
def Validator.Completes (V : Validator) (d : WorkflowDefinition) : Prop :=
  d.Status.Valid = true →
    ∃ rs, V.ValidateSchema d = some rs
      ∧ (rs.Valid = true →
          ∃ rc, V.ValidateContent d = some rc ∧ (rc.Valid = false → rc.Errors ≠ []))

/-- The schema result of the definition is valid. -/
def Validator.schemaValid (V : Validator) (d : WorkflowDefinition) : Bool :=
  match V.ValidateSchema d with
  | some r => r.Valid
  | none => false

/-- The part of `ValidateWorkflows` that follows `GetWorkflowDefinitions`: the loop, then the
returned error (`some none` is the return of `nil`, `none` a panic). -/
def validateDefinitions (V : Validator) (definitions : List WorkflowDefinition) :
    List Event × Option (Option String) :=
  match validateLoop V definitions true [] with
  | (log, none) => (log, none)
  | (log, some valid) =>
    (log, some (if !valid then some "workflow validation failed" else none))

/-- The function `ValidateWorkflows`. -/
def ValidateWorkflows (NewWorkflowValidator : Afero → Option Validator) (fs : Afero) (vm : VM)
    (context : JFlowsContext) : List Event × Option (Option String) :=
  match NewWorkflowValidator fs with
  | none => ([], none)
  | some V =>
    match GetWorkflowDefinitions fs vm context with
    | none => ([], none)
    | some (.error err) => ([], some (some err))
    | some (.ok definitions) => validateDefinitions V definitions

/-! ## Go `strconv.Quote`, the `%q` verb of `fmt.Sprintf` -/

namespace strconv

/-- The table `lowerhex` of Go `strconv`. -/
def lowerhex : List Char := "0123456789abcdef".data

/-- The hexadecimal digit of the four bits of `n` at bit offset `shift`
(`lowerhex[n>>shift&0xF]`). -/
def hexDigit (n shift : Nat) : Char :=
  lowerhex.getD ((n / 2 ^ shift) % 16) '0'

/-- Go `strconv.IsPrint`.  Up to U+00FF the function is a fixed range test; above, it looks the
rune up in the Unicode tables, which are the parameter `table`. -/
def IsPrint (table : Char → Bool) (r : Char) : Bool :=
  if r.toNat ≤ 0xFF then
    if 0x20 ≤ r.toNat ∧ r.toNat < 0x7F then true
    else if 0xA1 ≤ r.toNat ∧ r.toNat ≤ 0xFF then r.toNat ≠ 0xAD
    else false
  else table r

/-- Go `strconv.appendEscapedRune` for the quote character `"`, without `ASCIIonly` and
`graphicOnly`: what `Quote` writes for the rune `r`. -/
def escapedRune (table : Char → Bool) (r : Char) : List Char :=
  if r = '"' ∨ r = '\\' then ['\\', r]
  else if IsPrint table r then [r]
  else if r.toNat = 0x07 then ['\\', 'a']
  else if r.toNat = 0x08 then ['\\', 'b']
  else if r.toNat = 0x0C then ['\\', 'f']
  else if r.toNat = 0x0A then ['\\', 'n']
  else if r.toNat = 0x0D then ['\\', 'r']
  else if r.toNat = 0x09 then ['\\', 't']
  else if r.toNat = 0x0B then ['\\', 'v']
  else if r.toNat < 0x20 ∨ r.toNat = 0x7F then
    ['\\', 'x', hexDigit r.toNat 4, hexDigit r.toNat 0]
  else if r.toNat < 0x10000 then
    '\\' :: 'u' :: [12, 8, 4, 0].map (hexDigit r.toNat)
  else
    '\\' :: 'U' :: [28, 24, 20, 16, 12, 8, 4, 0].map (hexDigit r.toNat)

/-- Go `strconv.Quote` (what `%q` prints for a string): the escaped runes of `s` between two
double quotes.  (The branch of `Quote` for bytes that are not valid UTF-8 does not arise, a
`String` being valid UTF-8, nor does the branch of `appendEscapedRune` for invalid runes.) -/
def Quote (table : Char → Bool) (s : String) : String :=
  String.mk ('"' :: (s.data.flatMap (escapedRune table) ++ ['"']))

end strconv

/-! ## `workflow/workflow_validator.go` -/

/-- Modelled from the spec: the struct `Definition` of package `workflow`, whose declaration is
not among the sources; its fields are those of the data model (`Name`, `Source`, `Description`,
`Destination`, `Content`, `JSON`, `Status`).  `J` is the type of parsed JSON documents. -/
structure Definition (J : Type) where
  Name : String := ""
  Source : String := ""
  Description : String := ""
  Destination : String := ""
  Content : String := ""
  JSON : Option J := none
  Status : ValidationResult := { Valid := false }

/-- Modelled from the spec: the `Checks.Content` part of a workflow configuration; `Enabled` is
a `*bool`, `none` when it is not set. -/
structure GFlowsContentCheck where
  Enabled : Option Bool := none

/-- Modelled from the spec: the `Checks.Schema` part of a workflow configuration. -/
structure GFlowsSchemaCheck where
  Enabled : Option Bool := none
  URI : String := ""

/-- Modelled from the spec: the `Checks` part of a workflow configuration. -/
structure GFlowsChecks where
  Schema : GFlowsSchemaCheck := {}
  Content : GFlowsContentCheck := {}

/-- Modelled from the spec: `config.GFlowsWorkflowConfig`, whose declaration is not among the
sources. -/
structure GFlowsWorkflowConfig where
  Checks : GFlowsChecks := {}

/-- Modelled from the spec: the `Workflows` part of `config.GFlowsConfig`; `Overrides` is the map
from workflow names to `*GFlowsWorkflowConfig` (`none` for a missing key or a nil pointer). -/
structure GFlowsWorkflows where
  Defaults : GFlowsWorkflowConfig := {}
  Overrides : String → Option GFlowsWorkflowConfig := fun _ => none

/-- Modelled from the spec: `config.GFlowsConfig`, whose declaration is not among the sources. -/
structure GFlowsConfig where
  Workflows : GFlowsWorkflows := {}

/-- Modelled from the spec: `GFlowsConfig.GetWorkflowBoolProperty`, which is not among the
sources: "a per-name override falling back to a default".  The property selected from the
override of `workflowName`, when it is set; else the one selected from the defaults, when it is
set; else `defaultValue`. -/
def GFlowsConfig.GetWorkflowBoolProperty (config : GFlowsConfig) (workflowName : String)
    (defaultValue : Bool) (selector : GFlowsWorkflowConfig → Option Bool) : Bool :=
  match (config.Workflows.Overrides workflowName).bind selector with
  | some value => value
  | none =>
    match selector config.Workflows.Defaults with
    | some value => value
    | none => defaultValue

/-- What `result.Valid()` and `result.Errors()` give for a `gojsonschema` result (each error
already rendered by `String()`). -/
structure SchemaResult where
  Valid : Bool
  Errors : List String

/-- The operations of `gojsonschema` the validator calls, for schemas of type `S` and JSON
documents of type `J`: `NewSchema uri` is `NewSchema(NewReferenceLoader(uri))` and
`Validate schema json` is `schema.Validate(NewGoLoader(json))`. -/
structure Gojsonschema (S J : Type) where
  NewSchema : String → Except String S
  Validate : S → Option J → Except String SchemaResult

/-- The struct `WorkflowValidator`. -/
structure WorkflowValidator (S : Type) where
  fs : Afero
  defaultSchema : S
  config : GFlowsConfig

/-- The function `NewWorkflowValidator`; it panics when the default schema cannot be loaded. -/
def NewWorkflowValidator {S J : Type} (lib : Gojsonschema S J) (fs : Afero)
    (config : GFlowsConfig) : Option (WorkflowValidator S) :=
  match lib.NewSchema config.Workflows.Defaults.Checks.Schema.URI with
  | .error _ => none
  | .ok defaultSchema => some { fs := fs, defaultSchema := defaultSchema, config := config }

/-- The method `getWorkflowSchema`. -/
def WorkflowValidator.getWorkflowSchema {S J : Type} (lib : Gojsonschema S J)
    (validator : WorkflowValidator S) (workflowName : String) : Option S :=
  match validator.config.Workflows.Overrides workflowName with
  | none => some validator.defaultSchema
  | some workflowConfig =>
    if workflowConfig.Checks.Schema.URI = "" then some validator.defaultSchema
    else
      match lib.NewSchema workflowConfig.Checks.Schema.URI with
      | .error _ => none
      | .ok schema => some schema

/-- The method `getContentCheckEnabled`. -/
def WorkflowValidator.getContentCheckEnabled {S J : Type} (validator : WorkflowValidator S)
    (definition : Definition J) : Bool :=
  validator.config.GetWorkflowBoolProperty definition.Name true
    (fun config => config.Checks.Content.Enabled)

/-- The method `getSchemaCheckEnabled`. -/
def WorkflowValidator.getSchemaCheckEnabled {S J : Type} (validator : WorkflowValidator S)
    (definition : Definition J) : Bool :=
  validator.config.GetWorkflowBoolProperty definition.Name true
    (fun config => config.Checks.Schema.Enabled)

/-- The method `ValidateSchema`; `none` is a panic. -/
def WorkflowValidator.ValidateSchema {S J : Type} (lib : Gojsonschema S J)
    (validator : WorkflowValidator S) (definition : Definition J) : Option ValidationResult :=
  let enabled := validator.getSchemaCheckEnabled definition
  if !enabled then
    some { Valid := true
           Errors := ["Schema checks disabled for " ++ definition.Name ++ ", skipping"] }
  else
    match validator.getWorkflowSchema lib definition.Name with
    | none => none
    | some schema =>
      match lib.Validate schema definition.JSON with
      | .error _ => none
      | .ok result =>
        let errors := result.Errors.foldl (fun errors error => errors ++ [error]) []
        some { Valid := result.Valid, Errors := errors }

/-- The method `ValidateContent`; `none` is a panic.  `table` is the Unicode table used by the
`%q` verb. -/
def WorkflowValidator.ValidateContent {S J : Type} (table : Char → Bool)
    (validator : WorkflowValidator S) (definition : Definition J) : Option ValidationResult :=
  let enabled := validator.getContentCheckEnabled definition
  if !enabled then
    some { Valid := true
           Errors := ["Content checks disabled for " ++ definition.Name ++ ", skipping"] }
  else
    match validator.fs.Exists definition.Destination with
    | .error _ => none
    | .ok false =>
      let reason := "Workflow missing for " ++ strconv.Quote table definition.Name
        ++ " (expected workflow at " ++ definition.Destination ++ ")"
      some { Valid := false, Errors := [reason], ActualContent := "" }
    | .ok true =>
      match validator.fs.ReadFile definition.Destination with
      | .error _ => none
      | .ok actualContent =>
        if actualContent ≠ definition.Content then
          let reason := "Content is out of date for " ++ strconv.Quote table definition.Name
            ++ " (" ++ definition.Destination ++ ")"
          some { Valid := false, Errors := [reason], ActualContent := actualContent }
        else
          some { Valid := true, Errors := [] }

/-! ## The validator that `ValidateWorkflows` uses -/

/-- Modelled from the spec: the validator of package `lib` (`NewWorkflowValidator(fs)` and its
methods on a `*WorkflowDefinition`) is not among the sources.  It is taken to be the validator
of `workflow/workflow_validator.go`: this is the definition handed to its methods, with the
fields of the `WorkflowDefinition` and, as `JSON`, the content parsed by `parse`. -/
def WorkflowDefinition.toDefinition {J : Type} (parse : String → Option J)
    (d : WorkflowDefinition) : Definition J :=
  { Name := d.Name
    Source := d.Source
    Description := d.Source
    Destination := d.Destination
    Content := d.Content
    JSON := parse d.Content
    Status := d.Status }

/-- Modelled from the spec: the two methods that `ValidateWorkflows` calls, as the methods of
the validator of `workflow/workflow_validator.go` (the validator of package `lib` is not among
the sources). -/
def libValidator {S J : Type} (lib : Gojsonschema S J) (table : Char → Bool)
    (parse : String → Option J) (validator : WorkflowValidator S) : Validator :=
  { ValidateSchema := fun d => validator.ValidateSchema lib (d.toDefinition parse)
    ValidateContent := fun d => validator.ValidateContent table (d.toDefinition parse) }

/-- Modelled from the spec: the `NewWorkflowValidator` that `ValidateWorkflows` calls, as the
`NewWorkflowValidator` of `workflow/workflow_validator.go` with the configuration `config`. -/
def libNewWorkflowValidator {S J : Type} (lib : Gojsonschema S J) (table : Char → Bool)
    (parse : String → Option J) (config : GFlowsConfig) (fs : Afero) : Option Validator :=
  (NewWorkflowValidator lib fs config).map (libValidator lib table parse)

/-- Checking the definition makes no validator method panic: the methods that get invoked
return. -/
def Validator.Returns (V : Validator) (d : WorkflowDefinition) : Prop :=
  d.Status.Valid = true →
    ∃ rs, V.ValidateSchema d = some rs
      ∧ (rs.Valid = true → ∃ rc, V.ValidateContent d = some rc)

/-! ## Writing to the filesystem -/

/-- A filesystem as a machine: its states `σ` and, for each state, what the operations of
`afero` answer in it.  `WriteFile` is the only operation that changes the state; it returns the
state after the write, or the error of the write. -/
structure Storage (σ : Type) where
  Exists : σ → String → Except String Bool
  ReadFile : σ → String → Except String String
  Walk : σ → String → Except String (List String)
  WriteFile : σ → String → String → Except String σ

/-- What the `*afero.Afero` of the code answers while the filesystem is in state `s`. -/
def Storage.view {σ : Type} (F : Storage σ) (s : σ) : Afero :=
  { Exists := F.Exists s, ReadFile := F.ReadFile s, Walk := F.Walk s }

/-- The contract of `WriteFile`: after a write that returned no error, the path exists and
reading it gives the bytes written. -/
def Storage.ReadsBackWrites {σ : Type} (F : Storage σ) : Prop :=
  ∀ (s s1 : σ) (path data : String), F.WriteFile s path data = .ok s1 →
    F.Exists s1 path = .ok true ∧ F.ReadFile s1 path = .ok data

/-- The struct `File` of `fixtures/fixtures.go`. -/
structure File where
  Path : String
  Content : String
  deriving DecidableEq, Repr

/-- The function `NewFile` of `fixtures/fixtures.go`. -/
def NewFile (path content : String) : File :=
  { Path := path, Content := content }

/-- The method `File.Write` of `fixtures/fixtures.go`: it writes the content at the path and
drops the error of `WriteFile`, so a failed write leaves the filesystem as it was. -/
def File.Write {σ : Type} (f : File) (F : Storage σ) (s : σ) : σ :=
  match F.WriteFile s f.Path f.Content with
  | .ok s1 => s1
  | .error _ => s

/-- An instance of `Storage` for the examples: the state gives the bytes of the file at each
cleaned path, and a write always succeeds. -/
def fileStorage : Storage (String → Option String) :=
  { Exists := fun s path => .ok (s (filepath.Clean path)).isSome
    ReadFile := fun s path =>
      match s (filepath.Clean path) with
      | some data => .ok data
      | none => .error ("open " ++ path ++ ": file does not exist")
    Walk := fun _ root => .ok [root]
    WriteFile := fun s path data =>
      .ok (fun q => if q = filepath.Clean path then some data else s q) }

/-- A state of `fileStorage` with the workflow `test.yml`. -/
def exampleFiles : String → Option String :=
  fun q => if q = ".github/workflows/test.yml" then some "on: push\n" else none

/-! ## A small repository, for the examples -/

/-- What the filesystem answers for a repository with two templates and a library in its
workflows directory (`test.jsonnet` evaluates, `broken.jsonnet` does not) and the generated
workflow of `test.jsonnet`.  Paths are compared after cleaning, and a directory reads as no
bytes. -/
def exampleFs : Afero :=
  { Exists := fun path =>
      .ok (decide (filepath.Clean path ∈
        [".", ".jflows", ".jflows/workflows", ".jflows/workflows/broken.jsonnet",
         ".jflows/workflows/common.libsonnet", ".jflows/workflows/test.jsonnet",
         ".github", ".github/workflows", ".github/workflows/test.yml"]))
    ReadFile := fun path =>
      if filepath.Clean path = ".jflows/workflows/broken.jsonnet" then .ok "1 +"
      else if filepath.Clean path = ".jflows/workflows/common.libsonnet" then
        .ok "\"on: push\""
      else if filepath.Clean path = ".jflows/workflows/test.jsonnet" then
        .ok "import \"common.libsonnet\""
      else if filepath.Clean path = ".github/workflows/test.yml" then
        .ok ("# File generated by jflows, do not modify\n"
          ++ "# Source: .jflows/workflows/test.jsonnet\non: push\n")
      else if filepath.Clean path ∈
          [".", ".jflows", ".jflows/workflows", ".github", ".github/workflows"] then .ok ""
      else .error ("open " ++ path ++ ": file does not exist")
    Walk := fun root =>
      if filepath.Clean root = ".jflows/workflows" then
        .ok [".jflows/workflows", ".jflows/workflows/broken.jsonnet",
          ".jflows/workflows/common.libsonnet", ".jflows/workflows/test.jsonnet"]
      else .ok [root] }

/-- A VM that evaluates the template of `exampleFs` and rejects every other snippet. -/
def exampleVM : VM :=
  { EvaluateSnippet := fun filename snippet =>
      if snippet = "import \"common.libsonnet\"" then .ok "on: push\n"
      else .error (filename ++ ":1:4 Unexpected end of file\n") }

/-- The context of the examples. -/
def exampleContext : JFlowsContext :=
  { WorkflowsDir := ".jflows/workflows", GitHubDir := ".github" }

/-- The definition of the example template that does not evaluate. -/
def brokenDefinition : WorkflowDefinition :=
  { Name := "broken"
    Source := ".jflows/workflows/broken.jsonnet"
    Destination := ".github/workflows/broken.yml"
    Content := ""
    Status := { Valid := false
                Errors := [".jflows/workflows/broken.jsonnet:1:4 Unexpected end of file"] } }

/-- The definition of the example template that evaluates. -/
def testDefinition : WorkflowDefinition :=
  { Name := "test"
    Source := ".jflows/workflows/test.jsonnet"
    Destination := ".github/workflows/test.yml"
    Content := "# File generated by jflows, do not modify\n"
      ++ "# Source: .jflows/workflows/test.jsonnet\non: push\n"
    Status := { Valid := true } }

/-- The definitions `GetWorkflowDefinitions` returns for the examples. -/
def exampleDefinitions : List WorkflowDefinition :=
  [brokenDefinition, testDefinition]

/-- A validator for the examples: every schema is valid, and the content of the workflow
`stale` is out of date. -/
def exampleValidator : Validator :=
  { ValidateSchema := fun _ => some { Valid := true, Errors := [] }
    ValidateContent := fun d =>
      if d.Name = "stale" then
        some { Valid := false
               Errors := ["Content is out of date for \"stale\" (" ++ d.Destination ++ ")"]
               ActualContent := "on: pull_request\n" }
      else some { Valid := true, Errors := [] } }

/-- A definition whose content is out of date for `exampleValidator`. -/
def staleDefinition : WorkflowDefinition :=
  { Name := "stale"
    Source := ".jflows/workflows/stale.jsonnet"
    Destination := ".github/workflows/stale.yml"
    Content := "# File generated by jflows, do not modify\n"
      ++ "# Source: .jflows/workflows/stale.jsonnet\non: push\n"
    Status := { Valid := true } }

/-! ## A validator, for the examples -/

/-- A table for the runes above U+00FF that holds none of them printable; the examples use
ASCII names, for which `strconv.IsPrint` does not consult the table. -/
def exampleTable : Char → Bool := fun _ => false

/-- A `gojsonschema` for the examples, with one schema that accepts every document. -/
def exampleSchemaLib : Gojsonschema Unit Unit :=
  { NewSchema := fun _ => .ok (), Validate := fun _ _ => .ok { Valid := true, Errors := [] } }

/-- What the filesystem answers for a repository that holds the one workflow
`.github/workflows/test.yml`.  Paths are compared after cleaning, and a directory reads as no
bytes. -/
def exampleGitHubFs : Afero :=
  { Exists := fun path =>
      .ok (decide (filepath.Clean path ∈
        [".", ".github", ".github/workflows", ".github/workflows/test.yml"]))
    ReadFile := fun path =>
      if filepath.Clean path = ".github/workflows/test.yml" then .ok "on: push\n"
      else if filepath.Clean path ∈ [".", ".github", ".github/workflows"] then .ok ""
      else .error ("open " ++ path ++ ": file does not exist")
    Walk := fun root =>
      if filepath.Clean root = ".github/workflows" then
        .ok [".github/workflows", ".github/workflows/test.yml"]
      else .ok [root] }

/-- A validator over `exampleGitHubFs` with the given configuration. -/
def exampleWorkflowValidator (config : GFlowsConfig) : WorkflowValidator Unit :=
  { fs := exampleGitHubFs, defaultSchema := (), config := config }

/-- A configuration that disables the schema check and the content check by default. -/
def disabledConfig : GFlowsConfig :=
  { Workflows :=
      { Defaults :=
          { Checks := { Schema := { Enabled := some false }, Content := { Enabled := some false } } } } }

/-- A definition named `name` with the given destination and content. -/
def exampleDefinition (name destination content : String) : Definition Unit :=
  { Name := name
    Source := ".gflows/workflows/" ++ name ++ ".jsonnet"
    Description := ".gflows/workflows/" ++ name ++ ".jsonnet"
    Destination := destination
    Content := content
    JSON := some ()
    Status := { Valid := true } }

/-! ## Lemmas on the standard library functions -/

theorem foldl_append_filter {α : Type} (p : α → Prop) [DecidablePred p] (l acc : List α) :
    l.foldl (fun acc x => if p x then acc ++ [x] else acc) acc
      = acc ++ l.filter (fun x => decide (p x)) := by
  induction l generalizing acc with
  | nil => simp
  | cons x xs ih =>
    simp only [List.foldl_cons, ih]
    by_cases h : p x <;> simp [h, List.filter_cons]

theorem splitRev_noSep (n : List Char) (hn : '/' ∉ n) (acc : List Char) :
    filepath.splitRev n acc = ([], n.reverse ++ acc) := by
  induction n generalizing acc with
  | nil => simp [filepath.splitRev]
  | cons c t ih =>
    have hc : c ≠ '/' := fun h => hn (by simp [h])
    have ht : '/' ∉ t := fun h => hn (by simp [h])
    simp [filepath.splitRev, hc, ih ht]

theorem splitRev_sep (n : List Char) (hn : '/' ∉ n) (rest acc : List Char) :
    filepath.splitRev (n ++ '/' :: rest) acc = ('/' :: rest, n.reverse ++ acc) := by
  induction n generalizing acc with
  | nil => simp [filepath.splitRev]
  | cons c t ih =>
    have hc : c ≠ '/' := fun h => hn (by simp [h])
    have ht : '/' ∉ t := fun h => hn (by simp [h])
    simp [filepath.splitRev, hc, ih ht]

theorem extRev_suffix (r acc : List Char) : filepath.extRev r acc <:+ r.reverse ++ acc := by
  induction r generalizing acc with
  | nil => simp [filepath.extRev]
  | cons c t ih =>
    simp only [filepath.extRev]
    split
    · exact List.nil_suffix
    · split
      · rename_i h
        subst h
        simp
      · have := ih (c :: acc)
        simpa using this

/-- The file part of a path without separator is the path itself. -/
theorem Split_noSep (n : String) (hn : '/' ∉ n.data) : (filepath.Split n).2 = n := by
  simp [filepath.Split, splitRev_noSep n.data.reverse (by simpa using hn)]

/-- The file part of `d/n`, for `n` without separator, is `n`. -/
theorem Split_join (d n : String) (hn : '/' ∉ n.data) :
    (filepath.Split (d ++ "/" ++ n)).2 = n := by
  have h := splitRev_sep n.data.reverse (by simpa using hn) d.data.reverse []
  have hs : ("/" : String).data = ['/'] := rfl
  simp [filepath.Split, String.data_append, hs, h]

/-- The extension of a path is a suffix of the path. -/
theorem Ext_suffix (f : String) : (filepath.Ext f).data <:+ f.data := by
  have := extRev_suffix f.data.reverse []
  simpa [filepath.Ext] using this

/-- Trimming a suffix and putting it back gives the string. -/
theorem TrimSuffix_append (s suf : String) (h : suf.data <:+ s.data) :
    strings.TrimSuffix s suf ++ suf = s := by
  have hb : strings.HasSuffix s suf = true := by
    simpa [strings.HasSuffix] using h
  obtain ⟨pre, hpre⟩ := h
  apply String.ext
  simp only [strings.TrimSuffix, hb, if_true, String.data_append]
  rw [← hpre]
  simp

/-- The extension of `n.jsonnet` is `.jsonnet`, for `n` without separator. -/
theorem Ext_jsonnet (n : String) : filepath.Ext (n ++ ".jsonnet") = ".jsonnet" := by
  have hs : (".jsonnet" : String).data = ['.', 'j', 's', 'o', 'n', 'n', 'e', 't'] := rfl
  apply String.ext
  simp [filepath.Ext, String.data_append, hs, filepath.extRev]


/-! ## The source catalog: `getWorkflowSources`, `getWorkflowTemplates`, `getWorkflowName` -/

/-- C9: when the walk of the workflows directory visits the paths `visited`,
`getWorkflowTemplates` returns exactly the visited paths whose extension is `.jsonnet`, in walk
order, and `getWorkflowSources` exactly those whose extension is `.jsonnet` or `.libsonnet`; so
a path is a template iff it was visited and its extension is `.jsonnet`, and a `.libsonnet` file
is never a template. -/
theorem getWorkflowTemplates_eq_filter (fs : Afero) (context : JFlowsContext)
    (visited : List String) (hwalk : fs.Walk context.WorkflowsDir = .ok visited) :
    getWorkflowTemplates fs context
        = some (visited.filter (fun p => decide (filepath.Ext p = ".jsonnet")))
    ∧ getWorkflowSources fs context
        = some (visited.filter
            (fun p => decide (filepath.Ext p = ".jsonnet" ∨ filepath.Ext p = ".libsonnet")))
    ∧ (∀ templates, getWorkflowTemplates fs context = some templates →
        ∀ p, p ∈ templates ↔ p ∈ visited ∧ filepath.Ext p = ".jsonnet")
    ∧ (∀ templates, getWorkflowTemplates fs context = some templates →
        ∀ p, filepath.Ext p = ".libsonnet" → p ∉ templates) := by
  have hsources : getWorkflowSources fs context
      = some (visited.filter
          (fun p => decide (filepath.Ext p = ".jsonnet" ∨ filepath.Ext p = ".libsonnet"))) := by
    simp only [getWorkflowSources, hwalk]
    rw [foldl_append_filter
      (fun p => filepath.Ext p = ".jsonnet" ∨ filepath.Ext p = ".libsonnet")]
    simp
  have htemplates : getWorkflowTemplates fs context
      = some (visited.filter (fun p => decide (filepath.Ext p = ".jsonnet"))) := by
    simp only [getWorkflowTemplates, hsources]
    rw [foldl_append_filter (fun p => filepath.Ext p = ".jsonnet")]
    simp only [List.nil_append, List.filter_filter]
    congr 1
    apply List.filter_congr
    intro p _
    by_cases h : filepath.Ext p = ".jsonnet" <;> simp [h]
  refine ⟨htemplates, hsources, ?_, ?_⟩
  · intro templates ht p
    rw [htemplates] at ht
    cases ht
    simp [List.mem_filter]
  · intro templates ht p hp
    rw [htemplates] at ht
    cases ht
    simp [List.mem_filter, hp]

/-- The walk of the test `TestGetJsonnetWorkflowTemplates`: of a template, a library and a file
with another extension only the template is returned. -/
theorem getWorkflowTemplates_eq_filter_witness :
    getWorkflowTemplates
        { Exists := fun _ => .ok true, ReadFile := fun _ => .ok "",
          Walk := fun _ => .ok [".jflows/workflows", ".jflows/workflows/invalid.ext",
            ".jflows/workflows/test.jsonnet", ".jflows/workflows/test.libsonnet"] }
        { WorkflowsDir := ".jflows/workflows", GitHubDir := ".github" }
      = some [".jflows/workflows/test.jsonnet"] :=
  (getWorkflowTemplates_eq_filter
    { Exists := fun _ => .ok true, ReadFile := fun _ => .ok "",
      Walk := fun _ => .ok [".jflows/workflows", ".jflows/workflows/invalid.ext",
        ".jflows/workflows/test.jsonnet", ".jflows/workflows/test.libsonnet"] }
    { WorkflowsDir := ".jflows/workflows", GitHubDir := ".github" }
    [".jflows/workflows", ".jflows/workflows/invalid.ext",
      ".jflows/workflows/test.jsonnet", ".jflows/workflows/test.libsonnet"] rfl).1.trans
    (by decide)

/-- C10: `getWorkflowName` does not depend on the workflows directory nor on the directory part
of the path: for a file name `n` without separator, under every directory prefix `d`, the name
of `d/n` is the name of `n`; that name is `n` with its extension stripped (the name followed by
the extension of `n` is `n`); and the name of `d/n.jsonnet` is `n`. -/
theorem getWorkflowName_base (workflowsDir workflowsDir' d n : String)
    (hn : '/' ∉ n.data) :
    getWorkflowName workflowsDir (d ++ "/" ++ n) = getWorkflowName workflowsDir' n
    ∧ getWorkflowName workflowsDir n ++ filepath.Ext n = n
    ∧ getWorkflowName workflowsDir (d ++ "/" ++ n ++ ".jsonnet") = n := by
  have hstrip : ∀ f : String, strings.TrimSuffix f (filepath.Ext f) ++ filepath.Ext f = f :=
    fun f => TrimSuffix_append f (filepath.Ext f) (Ext_suffix f)
  refine ⟨?_, ?_, ?_⟩
  · simp only [getWorkflowName, Split_join d n hn, Split_noSep n hn]
  · simp only [getWorkflowName, Split_noSep n hn]
    exact hstrip n
  · have hs : (".jsonnet" : String).data = ['.', 'j', 's', 'o', 'n', 'n', 'e', 't'] := rfl
    have hn' : '/' ∉ (n ++ ".jsonnet").data := by
      simp [String.data_append, hs, hn]
    have hfile : (filepath.Split (d ++ "/" ++ n ++ ".jsonnet")).2 = n ++ ".jsonnet" := by
      rw [String.append_assoc (d ++ "/") n ".jsonnet"]
      exact Split_join d (n ++ ".jsonnet") hn'
    simp only [getWorkflowName, hfile, Ext_jsonnet]
    apply String.ext
    simp [strings.TrimSuffix, strings.HasSuffix, String.data_append]

/-- The second case of the test `TestGetJsonnetWorkflowName`, with a repeated `workflows`
segment. -/
theorem getWorkflowName_base_witness :
    getWorkflowName ".jflows/workflows" ("/workflows/workflows" ++ "/" ++ "my-workflow-2.v1")
        = getWorkflowName "" "my-workflow-2.v1"
    ∧ getWorkflowName ".jflows/workflows" "my-workflow-2.v1" ++ filepath.Ext "my-workflow-2.v1"
        = "my-workflow-2.v1"
    ∧ getWorkflowName ".jflows/workflows"
        ("/workflows/workflows" ++ "/" ++ "my-workflow-2.v1" ++ ".jsonnet") = "my-workflow-2.v1" :=
  getWorkflowName_base ".jflows/workflows" "" "/workflows/workflows" "my-workflow-2.v1"
    (by decide)


/-! ## The template engine: `GetWorkflowDefinitions` -/

/-- The loop of `GetWorkflowDefinitions` returns definitions exactly when every template can be
read, and then it has appended one definition per template, in order. -/
theorem definitionsLoop_ok (fs : Afero) (vm : VM) (context : JFlowsContext)
    (templates : List String) (acc definitions : List WorkflowDefinition) :
    definitionsLoop fs vm context templates acc = .ok definitions ↔
      ∃ inputs, List.Forall₂ (fun path input => fs.ReadFile path = .ok input) templates inputs
        ∧ definitions = acc ++ List.zipWith (evaluateTemplate vm context) templates inputs := by
  induction templates generalizing acc with
  | nil =>
    simp only [definitionsLoop, Except.ok.injEq]
    constructor
    · rintro rfl
      exact ⟨[], List.Forall₂.nil, by simp⟩
    · rintro ⟨inputs, hin, rfl⟩
      cases hin
      simp
  | cons path rest ih =>
    simp only [definitionsLoop]
    cases hread : fs.ReadFile path with
    | error err =>
      constructor
      · intro h
        cases h
      · rintro ⟨inputs, hin, -⟩
        cases hin with
        | cons h _ => simp [hread] at h
    | ok input =>
      simp only [ih]
      constructor
      · rintro ⟨inputs, hin, rfl⟩
        exact ⟨input :: inputs, List.Forall₂.cons hread hin, by simp⟩
      · rintro ⟨inputs, hin, rfl⟩
        cases hin with
        | cons h hrest =>
          rw [hread] at h
          cases h
          exact ⟨_, hrest, by simp⟩

/-- Every definition returned by `GetWorkflowDefinitions` is the one built from a template whose
file could be read. -/
theorem GetWorkflowDefinitions_mem (fs : Afero) (vm : VM) (context : JFlowsContext)
    (definitions : List WorkflowDefinition)
    (h : GetWorkflowDefinitions fs vm context = some (.ok definitions))
    (d : WorkflowDefinition) (hd : d ∈ definitions) :
    ∃ path input, fs.ReadFile path = .ok input ∧ d = evaluateTemplate vm context path input := by
  unfold GetWorkflowDefinitions at h
  cases ht : getWorkflowTemplates fs context with
  | none => simp [ht] at h
  | some templates =>
    simp only [ht, Option.some.injEq] at h
    obtain ⟨inputs, hin, rfl⟩ := (definitionsLoop_ok fs vm context templates [] definitions).1 h
    simp only [List.nil_append] at hd
    clear h ht
    induction hin with
    | nil => simp at hd
    | cons hread _ ih =>
      simp only [List.zipWith_cons_cons, List.mem_cons] at hd
      rcases hd with rfl | hd
      · exact ⟨_, _, hread, rfl⟩
      · exact ih hd

/-- The source of the definition built for a template is the template path. -/
theorem evaluateTemplate_Source (vm : VM) (context : JFlowsContext) (path input : String) :
    (evaluateTemplate vm context path input).Source = path := by
  unfold evaluateTemplate
  cases vm.EvaluateSnippet path input <;> rfl


/-- The content of the definition built for a template that evaluates to `w`: the two header
lines, then `w`. -/
theorem evaluateTemplate_Content_ok (vm : VM) (context : JFlowsContext) (path input w : String)
    (heval : vm.EvaluateSnippet path input = .ok w) :
    (evaluateTemplate vm context path input).Content
        = "# File generated by jflows, do not modify\n" ++ ("# Source: " ++ path ++ "\n") ++ w
    ∧ (evaluateTemplate vm context path input).Status.Valid = true := by
  simp only [evaluateTemplate, heval, strings.Join, String.intercalate, String.intercalate.go]
  refine ⟨?_, trivial⟩
  apply String.ext
  simp [String.data_append]

/-- The definition built for a template whose evaluation fails has no content and is invalid. -/
theorem evaluateTemplate_error (vm : VM) (context : JFlowsContext) (path input err : String)
    (heval : vm.EvaluateSnippet path input = .error err) :
    (evaluateTemplate vm context path input).Content = ""
    ∧ (evaluateTemplate vm context path input).Status.Valid = false
    ∧ (evaluateTemplate vm context path input).Status.Errors = [strings.Trim err " \n\r"] := by
  simp [evaluateTemplate, heval]

/-- A string that starts with the header line is not empty. -/
theorem header_append_ne_empty (rest : String) :
    "# File generated by jflows, do not modify\n" ++ rest ≠ "" := by
  intro h
  have hdata := congrArg String.data h
  have hlit : ("# File generated by jflows, do not modify\n" : String).data
      = '#' :: (" File generated by jflows, do not modify\n" : String).data := by decide
  rw [String.data_append, hlit] at hdata
  cases hdata

/-- On the templates it can read, the loop builds definitions whose sources are the templates. -/
theorem zipWith_evaluateTemplate_Source (fs : Afero) (vm : VM) (context : JFlowsContext)
    (templates inputs : List String)
    (hin : List.Forall₂ (fun path input => fs.ReadFile path = .ok input) templates inputs) :
    (List.zipWith (evaluateTemplate vm context) templates inputs).map (fun d => d.Source)
      = templates := by
  induction hin with
  | nil => rfl
  | cons _ _ ih => simp [evaluateTemplate_Source, ih]

/-- C6: when `GetWorkflowDefinitions` returns definitions, there is one per template, in the
order of the templates, and the content of every definition whose template (read from its
source path) evaluates to a string `w` is the do-not-modify line and the `# Source: <path>`
line, each ended by a newline, followed by exactly `w`. -/
theorem GetWorkflowDefinitions_Content (fs : Afero) (vm : VM) (context : JFlowsContext)
    (definitions : List WorkflowDefinition)
    (h : GetWorkflowDefinitions fs vm context = some (.ok definitions)) :
    getWorkflowTemplates fs context = some (definitions.map (fun d => d.Source))
    ∧ ∀ d ∈ definitions, ∀ input w, fs.ReadFile d.Source = .ok input →
        vm.EvaluateSnippet d.Source input = .ok w →
        d.Content
          = "# File generated by jflows, do not modify\n" ++ ("# Source: " ++ d.Source ++ "\n")
              ++ w := by
  constructor
  · unfold GetWorkflowDefinitions at h
    cases ht : getWorkflowTemplates fs context with
    | none => simp [ht] at h
    | some templates =>
      simp only [ht, Option.some.injEq] at h
      obtain ⟨inputs, hin, rfl⟩ := (definitionsLoop_ok fs vm context templates [] definitions).1 h
      simp [zipWith_evaluateTemplate_Source fs vm context templates inputs hin]
  · intro d hd input w hread heval
    obtain ⟨path, input', hread', rfl⟩ := GetWorkflowDefinitions_mem fs vm context definitions h d hd
    rw [evaluateTemplate_Source] at hread heval ⊢
    rw [hread'] at hread
    cases hread
    exact (evaluateTemplate_Content_ok vm context path _ w heval).1

/-- C7: every definition returned by `GetWorkflowDefinitions` has exactly one of: a non-empty
content, an invalid status.  When its template evaluates, the status is valid and the content is
not empty (whatever the evaluated string, the empty one included); when the evaluation fails,
the status is invalid and the content is empty. -/
theorem GetWorkflowDefinitions_Content_xor_invalid (fs : Afero) (vm : VM)
    (context : JFlowsContext) (definitions : List WorkflowDefinition)
    (h : GetWorkflowDefinitions fs vm context = some (.ok definitions)) :
    ∀ d ∈ definitions,
      Xor' (d.Content ≠ "") (d.Status.Valid = false)
      ∧ (∀ input w, fs.ReadFile d.Source = .ok input →
          vm.EvaluateSnippet d.Source input = .ok w → d.Status.Valid = true ∧ d.Content ≠ "")
      ∧ (∀ input err, fs.ReadFile d.Source = .ok input →
          vm.EvaluateSnippet d.Source input = .error err →
          d.Status.Valid = false ∧ d.Content = "") := by
  intro d hd
  obtain ⟨path, input', hread', rfl⟩ := GetWorkflowDefinitions_mem fs vm context definitions h d hd
  simp only [evaluateTemplate_Source]
  have hcases : (∃ w, vm.EvaluateSnippet path input' = .ok w)
      ∨ (∃ err, vm.EvaluateSnippet path input' = .error err) := by
    cases vm.EvaluateSnippet path input' with
    | ok w => exact Or.inl ⟨w, rfl⟩
    | error err => exact Or.inr ⟨err, rfl⟩
  have hinput : ∀ input, fs.ReadFile path = .ok input → input = input' := by
    intro input hread
    rw [hread'] at hread
    cases hread
    rfl
  rcases hcases with ⟨w, heval⟩ | ⟨err, heval⟩
  · obtain ⟨hc, hv⟩ := evaluateTemplate_Content_ok vm context path input' w heval
    have hne : (evaluateTemplate vm context path input').Content ≠ "" := by
      rw [hc, String.append_assoc]
      exact header_append_ne_empty _
    refine ⟨Or.inl ⟨hne, by simp [hv]⟩, fun _ _ _ _ => ⟨hv, hne⟩, ?_⟩
    intro input err hread heval'
    rw [hinput input hread, heval] at heval'
    cases heval'
  · obtain ⟨hc, hv, -⟩ := evaluateTemplate_error vm context path input' err heval
    refine ⟨Or.inr ⟨hv, by simp [hc]⟩, ?_, fun _ _ _ _ => ⟨hv, hc⟩⟩
    intro input w hread heval'
    rw [hinput input hread, heval] at heval'
    cases heval'


/-- The definitions of the example repository. -/
theorem GetWorkflowDefinitions_example :
    GetWorkflowDefinitions exampleFs exampleVM exampleContext = some (.ok exampleDefinitions) := by
  rfl

/-- On the example repository the templates are the sources of the two definitions, and the
content of the definition of `test.jsonnet`, which evaluates to `on: push`, is the two header
lines followed by that string. -/
theorem GetWorkflowDefinitions_Content_witness :
    getWorkflowTemplates exampleFs exampleContext
        = some [".jflows/workflows/broken.jsonnet", ".jflows/workflows/test.jsonnet"]
    ∧ testDefinition.Content
        = "# File generated by jflows, do not modify\n"
            ++ ("# Source: " ++ testDefinition.Source ++ "\n") ++ "on: push\n" :=
  ⟨(GetWorkflowDefinitions_Content exampleFs exampleVM exampleContext exampleDefinitions
      GetWorkflowDefinitions_example).1,
   (GetWorkflowDefinitions_Content exampleFs exampleVM exampleContext exampleDefinitions
      GetWorkflowDefinitions_example).2 testDefinition (by simp [exampleDefinitions])
      "import \"common.libsonnet\"" "on: push\n" rfl rfl⟩

/-- On the example repository the definition of `broken.jsonnet` is invalid without content and
the definition of `test.jsonnet` is valid with content. -/
theorem GetWorkflowDefinitions_Content_xor_invalid_witness :
    Xor' (brokenDefinition.Content ≠ "") (brokenDefinition.Status.Valid = false)
    ∧ Xor' (testDefinition.Content ≠ "") (testDefinition.Status.Valid = false)
    ∧ (testDefinition.Status.Valid = true ∧ testDefinition.Content ≠ "")
    ∧ (brokenDefinition.Status.Valid = false ∧ brokenDefinition.Content = "") :=
  ⟨(GetWorkflowDefinitions_Content_xor_invalid exampleFs exampleVM exampleContext
      exampleDefinitions GetWorkflowDefinitions_example brokenDefinition
      (by simp [exampleDefinitions])).1,
   (GetWorkflowDefinitions_Content_xor_invalid exampleFs exampleVM exampleContext
      exampleDefinitions GetWorkflowDefinitions_example testDefinition
      (by simp [exampleDefinitions])).1,
   (GetWorkflowDefinitions_Content_xor_invalid exampleFs exampleVM exampleContext
      exampleDefinitions GetWorkflowDefinitions_example testDefinition
      (by simp [exampleDefinitions])).2.1 "import \"common.libsonnet\"" "on: push\n" rfl rfl,
   (GetWorkflowDefinitions_Content_xor_invalid exampleFs exampleVM exampleContext
      exampleDefinitions GetWorkflowDefinitions_example brokenDefinition
      (by simp [exampleDefinitions])).2.2 "1 +"
      ".jflows/workflows/broken.jsonnet:1:4 Unexpected end of file\n" rfl rfl⟩


/-! ## `ValidateWorkflows` -/

/-- The loop returns `true` exactly when it started with `true` and every definition passes. -/
theorem validateLoop_true (V : Validator) (defs : List WorkflowDefinition) (valid : Bool)
    (log : List Event) :
    (validateLoop V defs valid log).2 = some true ↔ valid = true ∧ ∀ d ∈ defs, V.Passes d := by
  induction defs generalizing valid log with
  | nil => simp [validateLoop]
  | cons d rest ih =>
    unfold validateLoop
    simp only [List.mem_cons, forall_eq_or_imp, Validator.Passes]
    by_cases hv : d.Status.Valid = true
    · cases hs : V.ValidateSchema d with
      | none => simp [hv]
      | some rs =>
        by_cases hsv : rs.Valid = true
        · cases hc : V.ValidateContent d with
          | none => simp [hv, hsv]
          | some rc =>
            by_cases hcv : rc.Valid = true
            · simp [hv, hsv, hcv, ih, Validator.Passes]
            · cases hce : rc.Errors <;> simp [hv, hsv, hcv, ih, hce]
        · simp [hv, hsv, ih]
    · simp [hv, ih]


/-- The loop returns (does not panic) exactly when checking each definition completes. -/
theorem validateLoop_returns (V : Validator) (defs : List WorkflowDefinition) (valid : Bool)
    (log : List Event) :
    (validateLoop V defs valid log).2 ≠ none ↔ ∀ d ∈ defs, V.Completes d := by
  induction defs generalizing valid log with
  | nil => simp [validateLoop]
  | cons d rest ih =>
    unfold validateLoop
    simp only [List.mem_cons, forall_eq_or_imp, Validator.Completes]
    by_cases hv : d.Status.Valid = true
    · cases hs : V.ValidateSchema d with
      | none => simp [hv]
      | some rs =>
        by_cases hsv : rs.Valid = true
        · cases hc : V.ValidateContent d with
          | none => simp [hv, hsv]
          | some rc =>
            by_cases hcv : rc.Valid = true
            · simp [hv, hsv, hcv, ih, Validator.Completes]
            · cases hce : rc.Errors <;> simp [hv, hsv, hcv, ih, hce, Validator.Completes]
        · simp [hv, hsv, ih, Validator.Completes]
    · simp [hv, ih, Validator.Completes]

/-- Printed lines are not `Checking ...` events. -/
theorem filterMap_checkedName_text (f : String → String) (errors : List String) :
    (errors.map (fun err => Event.text (f err))).filterMap Event.checkedName = [] := by
  induction errors with
  | nil => rfl
  | cons e es _ => simp [List.filterMap_cons, Event.checkedName]

/-- Printed lines are not invocations of `ValidateSchema`. -/
theorem filterMap_schemaCall_text (f : String → String) (errors : List String) :
    (errors.map (fun err => Event.text (f err))).filterMap Event.schemaCall = [] := by
  induction errors with
  | nil => rfl
  | cons e es _ => simp [List.filterMap_cons, Event.schemaCall]

/-- Printed lines are not invocations of `ValidateContent`. -/
theorem filterMap_contentCall_text (f : String → String) (errors : List String) :
    (errors.map (fun err => Event.text (f err))).filterMap Event.contentCall = [] := by
  induction errors with
  | nil => rfl
  | cons e es _ => simp [List.filterMap_cons, Event.contentCall]

/-- When the loop returns, it has printed `Checking ...` for every definition, in order. -/
theorem validateLoop_checked (V : Validator) (defs : List WorkflowDefinition) (valid : Bool)
    (log : List Event) (hret : (validateLoop V defs valid log).2 ≠ none) :
    (validateLoop V defs valid log).1.filterMap Event.checkedName
      = log.filterMap Event.checkedName ++ defs.map (fun d => d.Name) := by
  induction defs generalizing valid log with
  | nil => simp [validateLoop]
  | cons d rest ih =>
    unfold validateLoop at hret ⊢
    by_cases hv : d.Status.Valid = true
    · cases hs : V.ValidateSchema d with
      | none => simp [hv, hs] at hret
      | some rs =>
        by_cases hsv : rs.Valid = true
        · cases hc : V.ValidateContent d with
          | none => simp [hv, hs, hsv, hc] at hret
          | some rc =>
            by_cases hcv : rc.Valid = true
            · simp only [hv, hs, hsv, hc, hcv] at hret ⊢
              simp at hret ⊢
              rw [ih _ _ hret]
              simp [List.filterMap_append, Event.checkedName]
            · cases hce : rc.Errors with
              | nil => simp [hv, hs, hsv, hc, hcv, hce] at hret
              | cons e es =>
                simp only [hv, hs, hsv, hc, hcv, hce] at hret ⊢
                simp at hret ⊢
                rw [ih _ _ hret]
                simp [List.filterMap_append, Event.checkedName]
        · simp only [hv, hs, hsv] at hret ⊢
          simp at hret ⊢
          rw [ih _ _ hret]
          simp [List.filterMap_append, Event.checkedName, filterMap_checkedName_text]
    · simp only [hv] at hret ⊢
      simp at hret ⊢
      rw [ih _ _ hret]
      simp [List.filterMap_append, Event.checkedName, filterMap_checkedName_text]


/-- When the loop returns, it has invoked `ValidateSchema` on the definitions with a valid
status, and `ValidateContent` on those of them with a valid schema result, each once and in
order. -/
theorem validateLoop_calls (V : Validator) (defs : List WorkflowDefinition) (valid : Bool)
    (log : List Event) (hret : (validateLoop V defs valid log).2 ≠ none) :
    (validateLoop V defs valid log).1.filterMap Event.schemaCall
        = log.filterMap Event.schemaCall ++ defs.filter (fun d => d.Status.Valid)
    ∧ (validateLoop V defs valid log).1.filterMap Event.contentCall
        = log.filterMap Event.contentCall
            ++ defs.filter (fun d => d.Status.Valid && V.schemaValid d) := by
  induction defs generalizing valid log with
  | nil => simp [validateLoop]
  | cons d rest ih =>
    unfold validateLoop at hret ⊢
    by_cases hv : d.Status.Valid = true
    · cases hs : V.ValidateSchema d with
      | none => simp [hv, hs] at hret
      | some rs =>
        by_cases hsv : rs.Valid = true
        · cases hc : V.ValidateContent d with
          | none => simp [hv, hs, hsv, hc] at hret
          | some rc =>
            by_cases hcv : rc.Valid = true
            · simp only [hv, hs, hsv, hc, hcv] at hret ⊢
              simp at hret ⊢
              rw [(ih _ _ hret).1, (ih _ _ hret).2]
              simp [List.filterMap_append, Event.schemaCall, Event.contentCall,
                List.filter_cons, hv, Validator.schemaValid, hs, hsv]
            · cases hce : rc.Errors with
              | nil => simp [hv, hs, hsv, hc, hcv, hce] at hret
              | cons e es =>
                simp only [hv, hs, hsv, hc, hcv, hce] at hret ⊢
                simp at hret ⊢
                rw [(ih _ _ hret).1, (ih _ _ hret).2]
                simp [List.filterMap_append, Event.schemaCall, Event.contentCall,
                  List.filter_cons, hv, Validator.schemaValid, hs, hsv]
        · simp only [hv, hs, hsv] at hret ⊢
          simp at hret ⊢
          rw [(ih _ _ hret).1, (ih _ _ hret).2]
          simp [List.filterMap_append, Event.schemaCall, Event.contentCall,
            List.filter_cons, hv, Validator.schemaValid, hs, hsv,
            filterMap_schemaCall_text, filterMap_contentCall_text]
    · simp only [hv] at hret ⊢
      simp at hret ⊢
      rw [(ih _ _ hret).1, (ih _ _ hret).2]
      simp [List.filterMap_append, Event.schemaCall, Event.contentCall,
        List.filter_cons, hv, filterMap_schemaCall_text, filterMap_contentCall_text]

/-- What an event of the loop over `defs` may be: an invocation of `ValidateSchema` is on a
definition of `defs` with a valid status, an invocation of `ValidateContent` on one that has a
valid schema result as well. -/
theorem validateLoop_events (V : Validator) (defs : List WorkflowDefinition) (valid : Bool)
    (log : List Event) :
    ∀ e ∈ (validateLoop V defs valid log).1, e ∈ log ∨
      ((∀ x, e = Event.invokeSchema x → x ∈ defs ∧ x.Status.Valid = true)
        ∧ (∀ x, e = Event.invokeContent x →
            x ∈ defs ∧ x.Status.Valid = true ∧ V.schemaValid x = true)) := by
  induction defs generalizing valid log with
  | nil =>
    intro e he
    exact Or.inl (by simpa [validateLoop] using he)
  | cons d rest ih =>
    have hstep : ∀ (valid1 : Bool) (new : List Event),
        (∀ e ∈ new,
          (∀ x, e = Event.invokeSchema x → x ∈ d :: rest ∧ x.Status.Valid = true)
          ∧ (∀ x, e = Event.invokeContent x →
              x ∈ d :: rest ∧ x.Status.Valid = true ∧ V.schemaValid x = true)) →
        ∀ e ∈ (validateLoop V rest valid1 (log ++ new)).1, e ∈ log ∨
          ((∀ x, e = Event.invokeSchema x → x ∈ d :: rest ∧ x.Status.Valid = true)
            ∧ (∀ x, e = Event.invokeContent x →
                x ∈ d :: rest ∧ x.Status.Valid = true ∧ V.schemaValid x = true)) := by
      intro valid1 new hnew e he
      rcases ih valid1 (log ++ new) e he with h | ⟨h1, h2⟩
      · rcases List.mem_append.1 h with h | h
        · exact Or.inl h
        · exact Or.inr (hnew e h)
      · refine Or.inr ⟨fun x hx => ?_, fun x hx => ?_⟩
        · exact ⟨List.mem_cons_of_mem _ (h1 x hx).1, (h1 x hx).2⟩
        · exact ⟨List.mem_cons_of_mem _ (h2 x hx).1, (h2 x hx).2⟩
    have hstop : ∀ (new : List Event),
        (∀ e ∈ new,
          (∀ x, e = Event.invokeSchema x → x ∈ d :: rest ∧ x.Status.Valid = true)
          ∧ (∀ x, e = Event.invokeContent x →
              x ∈ d :: rest ∧ x.Status.Valid = true ∧ V.schemaValid x = true)) →
        ∀ e ∈ log ++ new, e ∈ log ∨
          ((∀ x, e = Event.invokeSchema x → x ∈ d :: rest ∧ x.Status.Valid = true)
            ∧ (∀ x, e = Event.invokeContent x →
                x ∈ d :: rest ∧ x.Status.Valid = true ∧ V.schemaValid x = true)) := by
      intro new hnew e he
      rcases List.mem_append.1 he with h | h
      · exact Or.inl h
      · exact Or.inr (hnew e h)
    unfold validateLoop
    by_cases hv : d.Status.Valid = true
    · cases hs : V.ValidateSchema d with
      | none =>
        simp only [hv, Bool.not_true, Bool.false_eq_true, if_false, List.append_assoc]
        apply hstop
        simp [hv]
      | some rs =>
        by_cases hsv : rs.Valid = true
        · have hsd : V.schemaValid d = true := by simp [Validator.schemaValid, hs, hsv]
          cases hc : V.ValidateContent d with
          | none =>
            simp only [hv, hsv, Bool.not_true, Bool.false_eq_true, if_false, List.append_assoc]
            apply hstop
            simp [hv, hsd]
          | some rc =>
            by_cases hcv : rc.Valid = true
            · simp only [hv, hsv, hcv, Bool.not_true, Bool.false_eq_true, if_false,
                List.append_assoc]
              apply hstep
              simp [hv, hsd]
            · cases hce : rc.Errors with
              | nil =>
                simp only [hv, hsv, hcv, hce, Bool.not_true, Bool.false_eq_true, if_false,
                  Bool.not_false, if_true, List.append_assoc]
                apply hstop
                simp [hv, hsd]
              | cons first tail =>
                simp only [hv, hsv, hcv, hce, Bool.not_true, Bool.false_eq_true, if_false,
                  Bool.not_false, if_true, List.append_assoc]
                apply hstep
                simp [hv, hsd]
        · simp only [hv, hsv, Bool.not_true, Bool.false_eq_true, if_false, Bool.not_false,
            if_true, List.append_assoc]
          apply hstep
          simp [hv]
    · simp only [hv, Bool.not_false, if_true, List.append_assoc]
      apply hstep
      simp


/-- Once the validator is built and the definitions are there, `ValidateWorkflows` is the check
of these definitions. -/
theorem ValidateWorkflows_eq (NewWorkflowValidator : Afero → Option Validator) (fs : Afero)
    (vm : VM) (context : JFlowsContext) (V : Validator) (defs : List WorkflowDefinition)
    (hV : NewWorkflowValidator fs = some V)
    (hdefs : GetWorkflowDefinitions fs vm context = some (.ok defs)) :
    ValidateWorkflows NewWorkflowValidator fs vm context = validateDefinitions V defs := by
  simp [ValidateWorkflows, hV, hdefs]

/-- The check of a list of definitions, for every validator: it returns no error iff every
definition passes; when checking each definition completes, it returns and has gone through all
the definitions in order; and it never invokes a validator method on a definition whose status
is invalid. -/
theorem validateDefinitions_spec (V : Validator) (defs : List WorkflowDefinition) :
    ((validateDefinitions V defs).2 = some none ↔ ∀ d ∈ defs, V.Passes d)
    ∧ ((∀ d ∈ defs, V.Completes d) →
        (validateDefinitions V defs).2 ≠ none
        ∧ (validateDefinitions V defs).1.filterMap Event.checkedName
            = defs.map (fun d => d.Name)
        ∧ (validateDefinitions V defs).1.filterMap Event.schemaCall
            = defs.filter (fun d => d.Status.Valid)
        ∧ (validateDefinitions V defs).1.filterMap Event.contentCall
            = defs.filter (fun d => d.Status.Valid && V.schemaValid d))
    ∧ (∀ x, Event.invokeSchema x ∈ (validateDefinitions V defs).1
          ∨ Event.invokeContent x ∈ (validateDefinitions V defs).1 →
        x ∈ defs ∧ x.Status.Valid = true) := by
  have hlog : (validateDefinitions V defs).1 = (validateLoop V defs true []).1 := by
    unfold validateDefinitions
    rcases hres : validateLoop V defs true [] with ⟨log, _ | valid⟩ <;> rfl
  have hout : ∀ o, (validateLoop V defs true []).2 = o →
      (validateDefinitions V defs).2
        = o.map (fun valid => if !valid then some "workflow validation failed" else none) := by
    intro o ho
    unfold validateDefinitions
    rcases hres : validateLoop V defs true [] with ⟨log, _ | valid⟩
    · rw [hres] at ho
      subst ho
      rfl
    · rw [hres] at ho
      subst ho
      rfl
  refine ⟨?_, ?_, ?_⟩
  · have h := validateLoop_true V defs true []
    rw [hout _ rfl]
    constructor
    · intro hnil
      apply (h.1 _).2
      rcases hl : (validateLoop V defs true []).2 with _ | valid
      · rw [hl] at hnil
        cases hnil
      · rw [hl] at hnil
        cases valid
        · simp at hnil
        · rfl
    · intro hall
      rw [h.2 ⟨rfl, hall⟩]
      rfl
  · intro hall
    have hret := (validateLoop_returns V defs true []).2 hall
    refine ⟨?_, ?_, ?_, ?_⟩
    · rw [hout _ rfl]
      rcases hl : (validateLoop V defs true []).2 with _ | valid
      · exact absurd hl hret
      · simp
    · rw [hlog, validateLoop_checked V defs true [] hret]
      rfl
    · rw [hlog, (validateLoop_calls V defs true [] hret).1]
      rfl
    · rw [hlog, (validateLoop_calls V defs true [] hret).2]
      rfl
  · intro x hx
    rw [hlog] at hx
    rcases hx with hx | hx
    · rcases validateLoop_events V defs true [] _ hx with h | ⟨h, -⟩
      · cases h
      · exact h x rfl
    · rcases validateLoop_events V defs true [] _ hx with h | ⟨-, h⟩
      · cases h
      · exact ⟨(h x rfl).1, (h x rfl).2.1⟩

/-- An example of the check with `exampleValidator`: of an invalid definition, a stale one and
a valid one, all three are checked although the first two fail, the schema is validated for the
last two only, and so is the content. -/
theorem validateDefinitions_example :
    (validateDefinitions exampleValidator
        [brokenDefinition, staleDefinition, testDefinition]).2 ≠ none
    ∧ (validateDefinitions exampleValidator
        [brokenDefinition, staleDefinition, testDefinition]).1.filterMap
          Event.checkedName
        = [brokenDefinition, staleDefinition, testDefinition].map
            (fun d => d.Name)
    ∧ (validateDefinitions exampleValidator
        [brokenDefinition, staleDefinition, testDefinition]).1.filterMap
          Event.schemaCall
        = [brokenDefinition, staleDefinition, testDefinition].filter
            (fun d => d.Status.Valid)
    ∧ (validateDefinitions exampleValidator
        [brokenDefinition, staleDefinition, testDefinition]).1.filterMap
          Event.contentCall
        = [brokenDefinition, staleDefinition, testDefinition].filter
            (fun d => d.Status.Valid && exampleValidator.schemaValid d) :=
  (validateDefinitions_spec exampleValidator
      [brokenDefinition, staleDefinition, testDefinition]).2.1
    (by
      intro d _ _
      refine ⟨_, rfl, fun _ => ?_⟩
      by_cases hn : d.Name = "stale" <;> simp [exampleValidator, hn])


/-! ## The validator: `ValidateSchema` and `ValidateContent` -/

/-- A rune that is printable and is neither the quote nor the backslash is written as it is. -/
theorem escapedRune_plain (table : Char → Bool) (c : Char)
    (h : c ≠ '"' ∧ c ≠ '\\' ∧ strconv.IsPrint table c = true) :
    strconv.escapedRune table c = [c] := by
  simp [strconv.escapedRune, h.1, h.2.1, h.2.2]

/-- Quoting a string of printable runes without quote and backslash only adds the two quotes. -/
theorem Quote_plain (table : Char → Bool) (s : String)
    (h : ∀ c ∈ s.data, c ≠ '"' ∧ c ≠ '\\' ∧ strconv.IsPrint table c = true) :
    strconv.Quote table s = "\"" ++ s ++ "\"" := by
  have hflat : ∀ l : List Char,
      (∀ c ∈ l, c ≠ '"' ∧ c ≠ '\\' ∧ strconv.IsPrint table c = true) →
      l.flatMap (strconv.escapedRune table) = l := by
    intro l
    induction l with
    | nil => intro _; rfl
    | cons c t ih =>
      intro hl
      rw [List.flatMap_cons, escapedRune_plain table c (hl c (List.mem_cons_self _ _)),
        ih (fun x hx => hl x (List.mem_cons_of_mem _ hx))]
      rfl
  apply String.ext
  simp [strconv.Quote, hflat s.data h, String.data_append]

/-- The storage `fileStorage` keeps the contract of `WriteFile`. -/
theorem fileStorage_ReadsBackWrites : fileStorage.ReadsBackWrites := by
  intro s s1 path data h
  simp only [fileStorage, Except.ok.injEq] at h
  subst h
  simp [fileStorage]

/-- An invalid result of `ValidateContent` carries a message. -/
theorem ValidateContent_invalid_message {S J : Type} (table : Char → Bool)
    (validator : WorkflowValidator S) (d : Definition J) (r : ValidationResult)
    (hr : validator.ValidateContent table d = some r) (hinvalid : r.Valid = false) :
    r.Errors ≠ [] := by
  unfold WorkflowValidator.ValidateContent at hr
  by_cases henabled : validator.getContentCheckEnabled d = true
  · simp only [henabled, Bool.not_true, Bool.false_eq_true, if_false] at hr
    rcases hex : validator.fs.Exists d.Destination with err | _ | _
    · simp [hex] at hr
    · simp only [hex, Option.some.injEq] at hr
      rw [← hr]
      simp
    · simp only [hex] at hr
      rcases hrd : validator.fs.ReadFile d.Destination with err | actual
      · simp [hrd] at hr
      · simp only [hrd] at hr
        by_cases hc : actual = d.Content
        · simp only [hc, ne_eq, not_true_eq_false, if_false, Option.some.injEq] at hr
          rw [← hr] at hinvalid
          cases hinvalid
        · simp only [hc, ne_eq, not_false_eq_true, if_true, Option.some.injEq] at hr
          rw [← hr]
          simp
  · simp only [henabled, Bool.not_false, if_true, Option.some.injEq] at hr
    rw [← hr]
    simp

/-- C1, as stated, fails: with the content check disabled by configuration, `ValidateContent`
returns `Valid=true` for a definition whose destination does not exist. -/
theorem ValidateContent_valid_iff_counterexample :
    ¬ ((∃ r, (exampleWorkflowValidator disabledConfig).ValidateContent exampleTable
          (exampleDefinition "missing" ".github/workflows/missing.yml" "on: push\n") = some r
          ∧ r.Valid = true)
        ↔ ((exampleWorkflowValidator disabledConfig).fs.Exists ".github/workflows/missing.yml"
              = .ok true
            ∧ (exampleWorkflowValidator disabledConfig).fs.ReadFile
                ".github/workflows/missing.yml" = .ok "on: push\n")) := by
  intro h
  have hvalid : ∃ r, (exampleWorkflowValidator disabledConfig).ValidateContent exampleTable
      (exampleDefinition "missing" ".github/workflows/missing.yml" "on: push\n") = some r
      ∧ r.Valid = true :=
    ⟨{ Valid := true, Errors := ["Content checks disabled for missing, skipping"] }, rfl, rfl⟩
  have hexists := (h.1 hvalid).1
  have hmissing : (exampleWorkflowValidator disabledConfig).fs.Exists
      ".github/workflows/missing.yml" = .ok false := rfl
  rw [hmissing] at hexists
  cases hexists

/-- C1, amended: for every definition whose content check is enabled and every filesystem,
`ValidateContent` returns a result with `Valid=true` iff a file exists at the destination
(`Exists` answers true) whose bytes (what `ReadFile` returns) equal the content. -/
theorem ValidateContent_valid_iff {S J : Type} (table : Char → Bool)
    (validator : WorkflowValidator S) (d : Definition J)
    (henabled : validator.getContentCheckEnabled d = true) :
    (∃ r, validator.ValidateContent table d = some r ∧ r.Valid = true)
      ↔ (validator.fs.Exists d.Destination = .ok true
          ∧ validator.fs.ReadFile d.Destination = .ok d.Content) := by
  unfold WorkflowValidator.ValidateContent
  simp only [henabled, Bool.not_true, Bool.false_eq_true, if_false]
  rcases hex : validator.fs.Exists d.Destination with err | _ | _
  · simp
  · simp
  · rcases hrd : validator.fs.ReadFile d.Destination with err | actual
    · simp
    · by_cases hc : actual = d.Content <;> simp [hc]

/-- On `exampleGitHubFs`, with the default configuration, the definition whose content is the
stored workflow is valid, and the stored file is the definition's content. -/
theorem ValidateContent_valid_iff_witness :
    ((∃ r, (exampleWorkflowValidator {}).ValidateContent exampleTable
          (exampleDefinition "test" ".github/workflows/test.yml" "on: push\n") = some r
          ∧ r.Valid = true)
      ↔ ((exampleWorkflowValidator {}).fs.Exists ".github/workflows/test.yml" = .ok true
          ∧ (exampleWorkflowValidator {}).fs.ReadFile ".github/workflows/test.yml"
              = .ok "on: push\n"))
    ∧ (exampleWorkflowValidator {}).ValidateContent exampleTable
          (exampleDefinition "test" ".github/workflows/test.yml" "on: push\n")
        = some { Valid := true, Errors := [] } :=
  ⟨ValidateContent_valid_iff exampleTable (exampleWorkflowValidator {})
      (exampleDefinition "test" ".github/workflows/test.yml" "on: push\n") rfl,
    by decide⟩

/-- C2: for every filesystem that keeps the contract of `WriteFile`, every state of it and
every definition: when the write of the definition's content to its destination returns no
error, `File.Write` leaves the filesystem in the state after that write, and `ValidateContent`
on that filesystem returns a result with `Valid=true`; when the content check is enabled, the
result has no errors and an empty `ActualContent`. -/
theorem ValidateContent_after_WriteFile {σ S J : Type} (F : Storage σ)
    (hcontract : F.ReadsBackWrites) (table : Char → Bool) (config : GFlowsConfig)
    (defaultSchema : S) (s s1 : σ) (d : Definition J)
    (hwrite : F.WriteFile s d.Destination d.Content = .ok s1) :
    (NewFile d.Destination d.Content).Write F s = s1
    ∧ ∃ r, WorkflowValidator.ValidateContent table
          { fs := F.view ((NewFile d.Destination d.Content).Write F s),
            defaultSchema := defaultSchema, config := config } d = some r
        ∧ r.Valid = true
        ∧ (WorkflowValidator.getContentCheckEnabled
              { fs := F.view ((NewFile d.Destination d.Content).Write F s),
                defaultSchema := defaultSchema, config := config } d = true →
            r.Errors = [] ∧ r.ActualContent = "") := by
  have hstate : (NewFile d.Destination d.Content).Write F s = s1 := by
    simp [File.Write, NewFile, hwrite]
  have hback := hcontract s s1 d.Destination d.Content hwrite
  refine ⟨hstate, ?_⟩
  rw [hstate]
  unfold WorkflowValidator.ValidateContent WorkflowValidator.getContentCheckEnabled
  by_cases hen : config.GetWorkflowBoolProperty d.Name true
      (fun config => config.Checks.Content.Enabled) = true
  · simp [hen, Storage.view, hback.1, hback.2]
  · simp [hen]

/-- Writing a new content over the workflow `test.yml` of `exampleFiles` and validating the
definition with that content, with the default configuration. -/
theorem ValidateContent_after_WriteFile_witness :
    (NewFile ".github/workflows/test.yml" "on: pull_request\n").Write fileStorage exampleFiles
        = (fun q => if q = ".github/workflows/test.yml" then some "on: pull_request\n"
            else exampleFiles q)
    ∧ ∃ r, WorkflowValidator.ValidateContent exampleTable
          { fs := fileStorage.view
              ((NewFile ".github/workflows/test.yml" "on: pull_request\n").Write fileStorage
                exampleFiles),
            defaultSchema := (), config := {} }
          (exampleDefinition "test" ".github/workflows/test.yml" "on: pull_request\n") = some r
        ∧ r.Valid = true
        ∧ (WorkflowValidator.getContentCheckEnabled
              { fs := fileStorage.view
                  ((NewFile ".github/workflows/test.yml" "on: pull_request\n").Write fileStorage
                    exampleFiles),
                defaultSchema := (), config := {} }
              (exampleDefinition "test" ".github/workflows/test.yml" "on: pull_request\n")
                = true →
            r.Errors = [] ∧ r.ActualContent = "") :=
  ValidateContent_after_WriteFile fileStorage fileStorage_ReadsBackWrites exampleTable {} ()
    exampleFiles
    (fun q => if q = ".github/workflows/test.yml" then some "on: pull_request\n"
      else exampleFiles q)
    (exampleDefinition "test" ".github/workflows/test.yml" "on: pull_request\n") rfl

/-- C3, as stated, fails: for the name `a"b` the `%q` verb writes `"a\"b"`, so the message for
the missing destination `out.yml` does not contain the name as a substring. -/
theorem ValidateContent_missing_counterexample :
    (exampleWorkflowValidator {}).ValidateContent exampleTable
        (exampleDefinition "a\"b" "out.yml" "on: push\n")
      = some { Valid := false
               Errors := ["Workflow missing for \"a\\\"b\" (expected workflow at out.yml)"]
               ActualContent := "" }
    ∧ ¬ ("a\"b".data <:+:
          "Workflow missing for \"a\\\"b\" (expected workflow at out.yml)".data) := by
  decide

/-- C3, amended: for every definition whose content check is enabled and whose destination does
not exist, `ValidateContent` returns `Valid=false`, `ActualContent=""` and exactly one message,
`Workflow missing for <quoted name> (expected workflow at <destination>)`.  The message contains
the destination and the name as quoted by `%q`; it contains the name itself whenever every rune
of the name is printable and is neither a double quote nor a backslash. -/
theorem ValidateContent_missing {S J : Type} (table : Char → Bool)
    (validator : WorkflowValidator S) (d : Definition J)
    (henabled : validator.getContentCheckEnabled d = true)
    (hmissing : validator.fs.Exists d.Destination = .ok false) :
    validator.ValidateContent table d
      = some { Valid := false
               Errors := ["Workflow missing for " ++ strconv.Quote table d.Name
                 ++ " (expected workflow at " ++ d.Destination ++ ")"]
               ActualContent := "" }
    ∧ d.Destination.data <:+: ("Workflow missing for " ++ strconv.Quote table d.Name
        ++ " (expected workflow at " ++ d.Destination ++ ")").data
    ∧ (strconv.Quote table d.Name).data <:+: ("Workflow missing for "
        ++ strconv.Quote table d.Name ++ " (expected workflow at " ++ d.Destination ++ ")").data
    ∧ ((∀ c ∈ d.Name.data, c ≠ '"' ∧ c ≠ '\\' ∧ strconv.IsPrint table c = true) →
        d.Name.data <:+: ("Workflow missing for " ++ strconv.Quote table d.Name
          ++ " (expected workflow at " ++ d.Destination ++ ")").data) := by
  refine ⟨?_, ?_, ?_, ?_⟩
  · unfold WorkflowValidator.ValidateContent
    simp [henabled, hmissing]
  · exact ⟨("Workflow missing for " ++ strconv.Quote table d.Name
      ++ " (expected workflow at ").data, (")" : String).data, by simp [String.data_append]⟩
  · exact ⟨("Workflow missing for " : String).data,
      (" (expected workflow at " ++ d.Destination ++ ")").data, by simp [String.data_append]⟩
  · intro hplain
    rw [Quote_plain table d.Name hplain]
    exact ⟨("Workflow missing for " ++ "\"" : String).data,
      ("\"" ++ " (expected workflow at " ++ d.Destination ++ ")").data,
      by simp [String.data_append]⟩

/-- On `exampleGitHubFs`, with the default configuration, the workflow `missing` has no file: the
message names `missing` and the path. -/
theorem ValidateContent_missing_witness :
    (exampleWorkflowValidator {}).ValidateContent exampleTable
        (exampleDefinition "missing" ".github/workflows/missing.yml" "on: push\n")
      = some { Valid := false
               Errors := ["Workflow missing for \"missing\" "
                 ++ "(expected workflow at .github/workflows/missing.yml)"]
               ActualContent := "" } :=
  (ValidateContent_missing exampleTable (exampleWorkflowValidator {})
    (exampleDefinition "missing" ".github/workflows/missing.yml" "on: push\n") rfl rfl).1.trans
    (by decide)

/-- C4: for every definition whose content check is enabled and whose destination exists with
bytes `actual` different from the content, `ValidateContent` returns `Valid=false`, the one
message `Content is out of date for <quoted name> (<destination>)` and `ActualContent = actual`;
in every other outcome of `ValidateContent` the `ActualContent` is the empty string. -/
theorem ValidateContent_out_of_date {S J : Type} (table : Char → Bool)
    (validator : WorkflowValidator S) (d : Definition J) :
    (∀ actual, validator.getContentCheckEnabled d = true →
        validator.fs.Exists d.Destination = .ok true →
        validator.fs.ReadFile d.Destination = .ok actual → actual ≠ d.Content →
        validator.ValidateContent table d
          = some { Valid := false
                   Errors := ["Content is out of date for " ++ strconv.Quote table d.Name
                     ++ " (" ++ d.Destination ++ ")"]
                   ActualContent := actual })
    ∧ (∀ r, validator.ValidateContent table d = some r →
        ¬ (validator.getContentCheckEnabled d = true
            ∧ validator.fs.Exists d.Destination = .ok true
            ∧ ∃ actual, validator.fs.ReadFile d.Destination = .ok actual
                ∧ actual ≠ d.Content) →
        r.ActualContent = "") := by
  constructor
  · intro actual henabled hexists hread hdiff
    unfold WorkflowValidator.ValidateContent
    simp [henabled, hexists, hread, hdiff]
  · intro r hr hother
    unfold WorkflowValidator.ValidateContent at hr
    by_cases henabled : validator.getContentCheckEnabled d = true
    · simp only [henabled, Bool.not_true, Bool.false_eq_true, if_false] at hr
      rcases hex : validator.fs.Exists d.Destination with err | _ | _
      · simp [hex] at hr
      · simp only [hex, Option.some.injEq] at hr
        rw [← hr]
      · simp only [hex] at hr
        rcases hrd : validator.fs.ReadFile d.Destination with err | actual
        · simp [hrd] at hr
        · simp only [hrd] at hr
          by_cases hc : actual = d.Content
          · simp only [hc, ne_eq, not_true_eq_false, if_false, Option.some.injEq] at hr
            rw [← hr]
          · exact absurd ⟨henabled, hex, actual, hrd, hc⟩ hother
    · simp only [henabled, Bool.not_false, if_true, Option.some.injEq] at hr
      rw [← hr]

/-- On `exampleGitHubFs`, with the default configuration, the definition of `test` with a new
content is out of date, and the result carries the stored content. -/
theorem ValidateContent_out_of_date_witness :
    (exampleWorkflowValidator {}).ValidateContent exampleTable
        (exampleDefinition "test" ".github/workflows/test.yml" "on: pull_request\n")
      = some { Valid := false
               Errors := ["Content is out of date for \"test\" (.github/workflows/test.yml)"]
               ActualContent := "on: push\n" } :=
  ((ValidateContent_out_of_date exampleTable (exampleWorkflowValidator {})
    (exampleDefinition "test" ".github/workflows/test.yml" "on: pull_request\n")).1
      "on: push\n" rfl rfl rfl (by decide)).trans (by decide)

/-- C5: for every definition whose schema check (content check) is disabled by configuration,
`ValidateSchema` (`ValidateContent`) returns `Valid=true` with the single message
`Schema checks disabled for <Name>, skipping` (`Content checks disabled for <Name>, skipping`);
the result is the same for every other definition of that name and every validator with that
configuration, whatever the JSON, the schemas and the filesystem. -/
theorem checks_disabled {S J : Type} (lib : Gojsonschema S J) (table : Char → Bool)
    (validator : WorkflowValidator S) (d : Definition J) :
    (validator.getSchemaCheckEnabled d = false →
        validator.ValidateSchema lib d
          = some { Valid := true
                   Errors := ["Schema checks disabled for " ++ d.Name ++ ", skipping"]
                   ActualContent := "" }
        ∧ ∀ (lib1 : Gojsonschema S J) (validator1 : WorkflowValidator S) (d1 : Definition J),
            validator1.config = validator.config → d1.Name = d.Name →
            validator1.ValidateSchema lib1 d1 = validator.ValidateSchema lib d)
    ∧ (validator.getContentCheckEnabled d = false →
        validator.ValidateContent table d
          = some { Valid := true
                   Errors := ["Content checks disabled for " ++ d.Name ++ ", skipping"]
                   ActualContent := "" }
        ∧ ∀ (table1 : Char → Bool) (validator1 : WorkflowValidator S) (d1 : Definition J),
            validator1.config = validator.config → d1.Name = d.Name →
            validator1.ValidateContent table1 d1 = validator.ValidateContent table d) := by
  constructor
  · intro hdisabled
    have hres : validator.ValidateSchema lib d
        = some { Valid := true
                 Errors := ["Schema checks disabled for " ++ d.Name ++ ", skipping"]
                 ActualContent := "" } := by
      unfold WorkflowValidator.ValidateSchema
      simp [hdisabled]
    refine ⟨hres, ?_⟩
    intro lib1 validator1 d1 hconfig hname
    have hdisabled1 : validator1.getSchemaCheckEnabled d1 = false := by
      unfold WorkflowValidator.getSchemaCheckEnabled at hdisabled ⊢
      rw [hconfig, hname]
      exact hdisabled
    rw [hres]
    unfold WorkflowValidator.ValidateSchema
    simp [hdisabled1, hname]
  · intro hdisabled
    have hres : validator.ValidateContent table d
        = some { Valid := true
                 Errors := ["Content checks disabled for " ++ d.Name ++ ", skipping"]
                 ActualContent := "" } := by
      unfold WorkflowValidator.ValidateContent
      simp [hdisabled]
    refine ⟨hres, ?_⟩
    intro table1 validator1 d1 hconfig hname
    have hdisabled1 : validator1.getContentCheckEnabled d1 = false := by
      unfold WorkflowValidator.getContentCheckEnabled at hdisabled ⊢
      rw [hconfig, hname]
      exact hdisabled
    rw [hres]
    unfold WorkflowValidator.ValidateContent
    simp [hdisabled1, hname]

/-- With the checks disabled by default, the schema and the content of a workflow without file
are reported valid, each with its one message. -/
theorem checks_disabled_witness :
    (exampleWorkflowValidator disabledConfig).ValidateSchema exampleSchemaLib
        (exampleDefinition "missing" ".github/workflows/missing.yml" "on: push\n")
      = some { Valid := true, Errors := ["Schema checks disabled for missing, skipping"] }
    ∧ (exampleWorkflowValidator disabledConfig).ValidateContent exampleTable
        (exampleDefinition "missing" ".github/workflows/missing.yml" "on: push\n")
      = some { Valid := true, Errors := ["Content checks disabled for missing, skipping"] } :=
  ⟨(((checks_disabled exampleSchemaLib exampleTable (exampleWorkflowValidator disabledConfig)
      (exampleDefinition "missing" ".github/workflows/missing.yml" "on: push\n")).1 rfl).1).trans
      (by decide),
   (((checks_disabled exampleSchemaLib exampleTable (exampleWorkflowValidator disabledConfig)
      (exampleDefinition "missing" ".github/workflows/missing.yml" "on: push\n")).2 rfl).1).trans
      (by decide)⟩

/-- The check of a list of definitions returns (does not panic) exactly when checking each
definition completes. -/
theorem validateDefinitions_returns (V : Validator) (defs : List WorkflowDefinition) :
    (validateDefinitions V defs).2 ≠ none ↔ ∀ d ∈ defs, V.Completes d := by
  rw [← validateLoop_returns V defs true []]
  unfold validateDefinitions
  rcases validateLoop V defs true [] with ⟨log, _ | valid⟩ <;> simp

/-- For the validator of `workflow/workflow_validator.go`, checking a definition completes as
soon as the methods invoked return: its invalid content results carry a message. -/
theorem libValidator_Completes_iff {S J : Type} (lib : Gojsonschema S J) (table : Char → Bool)
    (parse : String → Option J) (validator : WorkflowValidator S) (d : WorkflowDefinition) :
    (libValidator lib table parse validator).Completes d
      ↔ (libValidator lib table parse validator).Returns d := by
  unfold Validator.Completes Validator.Returns
  constructor
  · intro h hv
    obtain ⟨rs, hrs, hc⟩ := h hv
    exact ⟨rs, hrs, fun hsv => (hc hsv).imp fun rc hrc => hrc.1⟩
  · intro h hv
    obtain ⟨rs, hrs, hc⟩ := h hv
    refine ⟨rs, hrs, fun hsv => ?_⟩
    obtain ⟨rc, hrc⟩ := hc hsv
    exact ⟨rc, hrc, ValidateContent_invalid_message table validator _ rc hrc⟩

/-- C8: for every filesystem, VM and context for which the validator is built and
`GetWorkflowDefinitions` returns the definitions `defs`, with the validator of
`workflow/workflow_validator.go`: `ValidateWorkflows` returns no error iff every definition has
a valid status, a valid `ValidateSchema` result and a valid `ValidateContent` result.  It
returns (with or without error) exactly when no validator method it invokes panics; then it has
gone through all the definitions in order, whatever failed on the way: it has printed
`Checking` for each, invoked `ValidateSchema` on exactly those with a valid status and
`ValidateContent` on exactly those with a valid status and a valid schema result.  In every
run, neither method is ever invoked on a definition whose status is invalid. -/
theorem ValidateWorkflows_spec {S J : Type} (lib : Gojsonschema S J) (table : Char → Bool)
    (parse : String → Option J) (config : GFlowsConfig) (fs : Afero) (vm : VM)
    (context : JFlowsContext) (validator : WorkflowValidator S)
    (defs : List WorkflowDefinition)
    (hV : NewWorkflowValidator lib fs config = some validator)
    (hdefs : GetWorkflowDefinitions fs vm context = some (.ok defs)) :
    ((ValidateWorkflows (libNewWorkflowValidator lib table parse config) fs vm context).2
          = some none
        ↔ ∀ d ∈ defs, (libValidator lib table parse validator).Passes d)
    ∧ ((ValidateWorkflows (libNewWorkflowValidator lib table parse config) fs vm context).2
          ≠ none
        ↔ ∀ d ∈ defs, (libValidator lib table parse validator).Returns d)
    ∧ ((∀ d ∈ defs, (libValidator lib table parse validator).Returns d) →
        (ValidateWorkflows (libNewWorkflowValidator lib table parse config) fs vm
            context).1.filterMap Event.checkedName
          = defs.map (fun d => d.Name)
        ∧ (ValidateWorkflows (libNewWorkflowValidator lib table parse config) fs vm
            context).1.filterMap Event.schemaCall
          = defs.filter (fun d => d.Status.Valid)
        ∧ (ValidateWorkflows (libNewWorkflowValidator lib table parse config) fs vm
            context).1.filterMap Event.contentCall
          = defs.filter
              (fun d => d.Status.Valid && (libValidator lib table parse validator).schemaValid d))
    ∧ (∀ x,
        Event.invokeSchema x
            ∈ (ValidateWorkflows (libNewWorkflowValidator lib table parse config) fs vm
                context).1
          ∨ Event.invokeContent x
            ∈ (ValidateWorkflows (libNewWorkflowValidator lib table parse config) fs vm
                context).1 →
        x ∈ defs ∧ x.Status.Valid = true) := by
  have hnew : libNewWorkflowValidator lib table parse config fs
      = some (libValidator lib table parse validator) := by
    simp [libNewWorkflowValidator, hV]
  rw [ValidateWorkflows_eq (libNewWorkflowValidator lib table parse config) fs vm context
    (libValidator lib table parse validator) defs hnew hdefs]
  have hspec := validateDefinitions_spec (libValidator lib table parse validator) defs
  have hcompletes : (∀ d ∈ defs, (libValidator lib table parse validator).Returns d)
      ↔ ∀ d ∈ defs, (libValidator lib table parse validator).Completes d :=
    forall₂_congr fun d _ => (libValidator_Completes_iff lib table parse validator d).symm
  refine ⟨hspec.1, ?_, ?_, hspec.2.2⟩
  · rw [hcompletes]
    exact validateDefinitions_returns _ defs
  · intro hreturns
    exact (hspec.2.1 (hcompletes.1 hreturns)).2

/-- On the example repository, with the default configuration: the definition of
`broken.jsonnet` fails, and `ValidateWorkflows` still returns and has checked both definitions,
validating the schema and the content of `test` only. -/
theorem ValidateWorkflows_spec_witness :
    (ValidateWorkflows (libNewWorkflowValidator exampleSchemaLib exampleTable
        (fun _ => some ()) {}) exampleFs exampleVM exampleContext).2 ≠ none
    ∧ (ValidateWorkflows (libNewWorkflowValidator exampleSchemaLib exampleTable
        (fun _ => some ()) {}) exampleFs exampleVM exampleContext).1.filterMap
          Event.checkedName
        = ["broken", "test"]
    ∧ (ValidateWorkflows (libNewWorkflowValidator exampleSchemaLib exampleTable
        (fun _ => some ()) {}) exampleFs exampleVM exampleContext).1.filterMap
          Event.schemaCall
        = [testDefinition]
    ∧ (ValidateWorkflows (libNewWorkflowValidator exampleSchemaLib exampleTable
        (fun _ => some ()) {}) exampleFs exampleVM exampleContext).1.filterMap
          Event.contentCall
        = [testDefinition] :=
  have hreturns : ∀ d ∈ exampleDefinitions,
      (libValidator exampleSchemaLib exampleTable (fun _ => some ())
        { fs := exampleFs, defaultSchema := (), config := {} }).Returns d := by
    intro d hd
    simp only [exampleDefinitions, List.mem_cons, List.mem_singleton, List.not_mem_nil,
      or_false] at hd
    rcases hd with rfl | rfl
    · intro h
      cases h
    · intro _
      exact ⟨{ Valid := true, Errors := [] }, rfl,
        fun _ => ⟨{ Valid := true, Errors := [] }, rfl⟩⟩
  ⟨((ValidateWorkflows_spec exampleSchemaLib exampleTable (fun _ => some ()) {} exampleFs
      exampleVM exampleContext { fs := exampleFs, defaultSchema := (), config := {} }
      exampleDefinitions rfl GetWorkflowDefinitions_example).2.1).2 hreturns,
   (((ValidateWorkflows_spec exampleSchemaLib exampleTable (fun _ => some ()) {} exampleFs
      exampleVM exampleContext { fs := exampleFs, defaultSchema := (), config := {} }
      exampleDefinitions rfl GetWorkflowDefinitions_example).2.2.1 hreturns).1).trans rfl,
   (((ValidateWorkflows_spec exampleSchemaLib exampleTable (fun _ => some ()) {} exampleFs
      exampleVM exampleContext { fs := exampleFs, defaultSchema := (), config := {} }
      exampleDefinitions rfl GetWorkflowDefinitions_example).2.2.1 hreturns).2.1).trans rfl,
   (((ValidateWorkflows_spec exampleSchemaLib exampleTable (fun _ => some ()) {} exampleFs
      exampleVM exampleContext { fs := exampleFs, defaultSchema := (), config := {} }
      exampleDefinitions rfl GetWorkflowDefinitions_example).2.2.1 hreturns).2.2).trans rfl⟩

end Jflows
